import Mathlib

/-!
Shallow embedding of the core of `src/RichTextInput.tsx` from the
`enriched-text-input` repository: the annotated-run data model, the diff
engine, the run-locating walks, the split/merge operations, the markup
parser and serializer, and the pending-style state machine of the
component, together with theorems settling the specification claims.

Strings are modelled as `List Char`.  JavaScript values stored in an
annotations object are modelled by `AVal`; a key can be absent, or present
with an explicitly-`undefined` value (the two differ only through
`Object.keys`).  Fallible code paths (member access on `undefined`,
implicit `undefined` returns that the caller destructures) are modelled by
`Option`.
-/

abbrev Str := List Char

/-- A JavaScript value stored in an annotations object: a boolean, a
string, `null`, or an explicitly present `undefined`. -/
inductive AVal where
  | b (v : Bool)
  | s (v : Str)
  | null
  | undef
deriving DecidableEq, Repr

/-- JS truthiness: `undefined`, `null`, `false` and `""` are falsy. -/
def jsTruthy : AVal → Bool
  | .b v => v
  | .s v => !v.isEmpty
  | .null => false
  | .undef => false

/-- An annotations object: ordered key/value pairs, no duplicate keys by
construction (mirrors JS object key order). -/
abbrev Annotations := List (String × AVal)

/-- `obj[k]` — reading an absent key yields `undefined`. -/
def jsGet : Annotations → String → AVal
  | [], _ => .undef
  | (k1, v1) :: rest, k => if k1 = k then v1 else jsGet rest k

/-- `Object.keys(obj)` in insertion order. -/
def annKeys (a : Annotations) : List String := a.map Prod.fst

/-- `obj[k] = v` / `{...obj, [k]: v}`: update an existing key in place,
otherwise append it. -/
def setKey (a : Annotations) (k : String) (v : AVal) : Annotations :=
  if a.any (fun kv => kv.1 == k) then
    a.map (fun kv => if kv.1 = k then (k, v) else kv)
  else a ++ [(k, v)]

/-- `concileAnnotations` (RichTextInput.tsx:128): for each key of the new
annotations, a truthy new value negates the previous value (JS `!`, where
`undefined` negates to `true`), a falsy new value is assigned directly. -/
def concileAnnotations (prev nw : Annotations) : Annotations :=
  nw.foldl
    (fun acc kv =>
      if jsTruthy kv.2 then setKey acc kv.1 (.b (!jsTruthy (jsGet acc kv.1)))
      else setKey acc kv.1 kv.2)
    prev

/-- A run (`Token` in the source): a text span plus its annotations. -/
structure Tok where
  text : Str
  annotations : Annotations
deriving DecidableEq, Repr

/-- `tokens.reduce((acc, curr) => acc + curr.text, "")`. -/
def tsFlat (ts : List Tok) : Str := ts.foldl (fun acc t => acc ++ t.text) []

/-- Sum of the text lengths of a run list. -/
def textLen (ts : List Tok) : Nat := (ts.map (fun t => t.text.length)).sum

/-- The annotations governing flat-text position `p` (the run found by a
strict `<` walk); `[]` past the end. -/
def posAnn : List Tok → Nat → Annotations
  | [], _ => []
  | t :: ts, p => if p < t.text.length then t.annotations else posAnn ts (p - t.text.length)

/-- One step of `concatTokens` (RichTextInput.tsx:595): an incoming run is
absorbed into the last accumulated run when that run's key set is non-empty
and each of its keys has a `===`-equal value in the incoming run. -/
def concatStep (acc : List Tok) (t : Tok) : List Tok :=
  match acc.getLast? with
  | none => acc ++ [t]
  | some prev =>
    let ks := annKeys prev.annotations
    if !ks.isEmpty && ks.all (fun k => decide (jsGet prev.annotations k = jsGet t.annotations k)) then
      acc.dropLast ++ [⟨prev.text ++ t.text, prev.annotations⟩]
    else acc ++ [t]

/-- `concatTokens` (RichTextInput.tsx:595): merge pass over the run list. -/
def concatTokens (ts : List Tok) : List Tok := ts.foldl concatStep []

/-- Length of the longest common prefix of two strings (the first loop of
`diffStrings`). -/
def commonPrefixLen : Str → Str → Nat
  | x :: xs, y :: ys => if x = y then commonPrefixLen xs ys + 1 else 0
  | _, _ => 0

/-- A diff record (`Diff` in the source). -/
structure DiffT where
  start : Nat
  removed : Str
  added : Str
deriving DecidableEq, Repr

/-- `diffStrings` (RichTextInput.tsx:141): longest common prefix, then a
common-suffix scan bounded below by the prefix, returning the differing
middles. -/
def diffStrings (prev next : Str) : DiffT :=
  let st := commonPrefixLen prev next
  let p := prev.drop st
  let n := next.drop st
  let suf := commonPrefixLen p.reverse n.reverse
  ⟨st, p.take (p.length - suf), n.take (n.length - suf)⟩

/-- Clamp a JS index argument into `[0, len]` (`slice` semantics: a
negative index counts from the end). -/
def jsClamp (len : Nat) (i : Int) : Nat :=
  if i < 0 then len - min len i.natAbs else min i.toNat len

/-- `str.slice(a, b)`. -/
def jsSlice (str : Str) (a b : Int) : Str :=
  (str.take (jsClamp str.length b)).drop (jsClamp str.length a)

/-- `str.slice(a)`. -/
def jsSliceFrom (str : Str) (a : Int) : Str := jsSlice str a str.length

/-- `arr.slice(a, b)` on a run list. -/
def jsSliceToks (ts : List Tok) (a b : Int) : List Tok :=
  (ts.take (jsClamp ts.length b)).drop (jsClamp ts.length a)

/-- Split a string around the first occurrence of `pat`:
`some (before, after)` or `none` when `pat` does not occur. -/
def splitFirst : Str → Str → Option (Str × Str)
  | [], pat => if pat.isEmpty then some ([], []) else none
  | c :: cs, pat =>
    if pat.isPrefixOf (c :: cs) then some ([], (c :: cs).drop pat.length)
    else
      match splitFirst cs pat with
      | some (a, b) => some (c :: a, b)
      | none => none

/-- Whether `pat` occurs as a contiguous substring. -/
def hasOccur : Str → Str → Bool
  | [], pat => pat.isEmpty
  | c :: cs, pat => pat.isPrefixOf (c :: cs) || hasOccur cs pat

/-- `str.replace(pat, "")`: remove the first occurrence of `pat`. -/
def replaceFirst (str pat : Str) : Str :=
  match splitFirst str pat with
  | some (a, b) => a ++ b
  | none => str

/-- JS string conversion of a possibly-`undefined` string value (the
source calls `.replace(withReplacement, "")` and template-interpolates
`pattern.opening`; an `undefined` argument is stringified to
`"undefined"`). -/
def jsStr : Option Str → Str
  | some v => v
  | none => "undefined".toList

/-- Index of the first occurrence of `pat` in `str`. -/
def idxOf : Str → Str → Option Nat
  | [], pat => if pat.isEmpty then some 0 else none
  | c :: cs, pat =>
    if pat.isPrefixOf (c :: cs) then some 0
    else (idxOf cs pat).map (· + 1)

/-- `str.indexOf(pat)`: `-1` when absent. -/
def jsIndexOf (str pat : Str) : Int :=
  match idxOf str pat with
  | some n => (n : Int)
  | none => -1

/-- `str.indexOf(pat, from)`: the search start is clamped into range. -/
def jsIndexOfFrom (str pat : Str) (f : Int) : Int :=
  let fn := jsClamp str.length f
  match idxOf (str.drop fn) pat with
  | some n => ((fn + n : Nat) : Int)
  | none => -1

/-- The run-locating walk with strict `<` (used for start offsets): mirrors
the JS loop variable, returning the leftover offset together with the run
and its index when one was found (`startToken` stays `undefined` and the
leftover keeps its final value otherwise). -/
def walkLt : List Tok → Int → Int × Option (Nat × Tok)
  | [], k => (k, none)
  | t :: ts, k =>
    if k < (t.text.length : Int) then (k, some (0, t))
    else
      let r := walkLt ts (k - t.text.length)
      (r.1, r.2.map (fun p => (p.1 + 1, p.2)))

/-- The run-locating walk with `≤` (used for end offsets). -/
def walkLe : List Tok → Int → Int × Option (Nat × Tok)
  | [], k => (k, none)
  | t :: ts, k =>
    if k ≤ (t.text.length : Int) then (k, some (0, t))
    else
      let r := walkLe ts (k - t.text.length)
      (r.1, r.2.map (fun p => (p.1 + 1, p.2)))

/-- Result record of `splitTokens` (`{ result, plain_text }`). -/
structure SplitRes where
  result : List Tok
  plain_text : Str
deriving DecidableEq, Repr

/-- `arr[i] = t` for a run list: in-range assignment replaces the element;
an out-of-range index (e.g. `-1`) creates a plain property and leaves the
elements unchanged. -/
def setAt (ts : List Tok) (i : Int) (t : Tok) : List Tok :=
  if 0 ≤ i ∧ i.toNat < ts.length then ts.set i.toNat t else ts

/-- `splitTokens` (RichTextInput.tsx:450): split the runs covering
`[start, finish)` and apply the annotation delta; `withReplacement` is the
delimiter literal stripped while parsing (an absent argument is stringified
by `.replace` to `"undefined"`).  `none` models a thrown `TypeError`
(member access on an `undefined` located run). -/
def splitTokens (tokens : List Tok) (start finish : Int) (anns : Annotations)
    (withReplacement : Option Str) : Option SplitRes :=
  let sW := walkLt tokens start
  let eW := walkLe tokens finish
  let repl := jsStr withReplacement
  match sW.2, eW.2 with
  | some (si, stok), some (ei, etok) =>
    let sOff := sW.1
    let eOff := eW.1
    if si = ei then
      let firstTok : Tok := ⟨jsSlice stok.text 0 sOff, stok.annotations⟩
      let middleTok : Tok :=
        ⟨replaceFirst (jsSlice stok.text sOff eOff) repl,
         concileAnnotations stok.annotations anns⟩
      let lastTok : Tok :=
        ⟨replaceFirst (jsSlice stok.text eOff stok.text.length) repl, stok.annotations⟩
      let updated := tokens.take si ++ [firstTok, middleTok, lastTok] ++ tokens.drop (si + 1)
      some ⟨updated.filter (fun t => 0 < t.text.length), tsFlat updated⟩
    else
      -- `Object.keys(annotations)[0]`; an undefined key subscripts as "undefined"
      let tkey := match annKeys anns with
        | [] => "undefined"
        | k :: _ => k
      let selected := jsSliceToks tokens si ((ei : Int) + 1)
      let allHave := selected.all (fun t => decide (jsGet t.annotations tkey = .b true))
      let firstTok : Tok :=
        ⟨jsSlice stok.text 0 sOff,
         setKey stok.annotations tkey (jsGet stok.annotations tkey)⟩
      let secondTok : Tok :=
        ⟨replaceFirst (jsSlice stok.text sOff stok.text.length) repl,
         setKey stok.annotations tkey (.b (!allHave))⟩
      let middles := (jsSliceToks tokens ((si : Int) + 1) ei).map
        (fun t => (⟨t.text, setKey t.annotations tkey (.b (!allHave))⟩ : Tok))
      let secondToLast : Tok :=
        ⟨jsSlice etok.text 0 eOff, setKey etok.annotations tkey (.b (!allHave))⟩
      let lastTok : Tok :=
        ⟨replaceFirst (jsSlice etok.text eOff etok.text.length) repl,
         setKey etok.annotations tkey (jsGet etok.annotations tkey)⟩
      let updated := tokens.take si ++ [firstTok, secondTok] ++ middles
        ++ [secondToLast, lastTok] ++ tokens.drop (ei + 1)
      some ⟨updated.filter (fun t => 0 < t.text.length), tsFlat updated⟩
  | _, _ => none

/-- Result record of `updateTokens` (`{ updatedTokens, plain_text }`). -/
structure UpdRes where
  updatedTokens : List Tok
  plain_text : Str
deriving DecidableEq, Repr

/-- Remove `cnt` elements of a run list starting at index `i`
(`arr.splice(i, cnt)` for the indices arising here). -/
def spliceOut (ts : List Tok) (i cnt : Nat) : List Tok :=
  ts.take i ++ ts.drop (i + cnt)

/-- The locate-and-edit part of `updateTokens` (RichTextInput.tsx:311-443),
reached when the end-of-buffer branch did not return. -/
def updateTokensCore (tokens : List Tok) (diff : DiffT) : Option UpdRes :=
  let sW := walkLt tokens (diff.start : Int)
  let endAbs : Int := if diff.removed.length > diff.added.length
    then ((diff.start + diff.removed.length : Nat) : Int)
    else ((diff.start + diff.added.length : Nat) : Int)
  let eW := walkLe tokens endAbs
  let sIdx : Int := match sW.2 with | some p => (p.1 : Int) | none => -1
  let eIdx : Int := match eW.2 with | some p => (p.1 : Int) | none => -1
  let sOff := sW.1
  let eOff := eW.1
  if sIdx = eIdx then
    match sW.2 with
    | none => none -- `{...undefined}` then member access / implicit undefined return
    | some (si, stok) =>
      if 0 < diff.removed.length ∧ 0 < diff.added.length then
        -- replaceAt
        let ntext := jsSlice stok.text 0 sOff ++ diff.added
          ++ jsSliceFrom stok.text (sOff + diff.removed.length)
        let updated := setAt tokens si ⟨ntext, stok.annotations⟩
        some ⟨updated.filter (fun t => 0 < t.text.length), tsFlat updated⟩
      else if 0 < diff.removed.length then
        -- removeAt
        let ntext := jsSlice stok.text 0 sOff ++ jsSliceFrom stok.text (sOff + diff.removed.length)
        let updated := setAt tokens si ⟨ntext, stok.annotations⟩
        some ⟨updated.filter (fun t => 0 < t.text.length), tsFlat updated⟩
      else if 0 < diff.added.length then
        if 0 < si ∧ sOff = 0 then
          -- RNRT-6: extend the previous run instead
          match tokens.get? (si - 1) with
          | none => none
          | some pt =>
            let updated := setAt tokens ((si : Int) - 1) ⟨pt.text ++ diff.added, pt.annotations⟩
            some ⟨updated.filter (fun t => 0 < t.text.length), tsFlat updated⟩
        else
          -- insertAt
          let ntext := jsSlice stok.text 0 sOff ++ diff.added ++ jsSliceFrom stok.text sOff
          let updated := setAt tokens si ⟨ntext, stok.annotations⟩
          some ⟨updated.filter (fun t => 0 < t.text.length), tsFlat updated⟩
      else none -- no sub-branch: the function falls through and returns undefined
  else
    match jsSliceToks tokens sIdx (eIdx + 1) with
    | [] =>
      if 0 < diff.added.length ∨ 0 < diff.removed.length then none -- selectedTokens[0].text throws
      else some ⟨tokens.filter (fun t => 0 < t.text.length), tsFlat tokens⟩
    | f0 :: rest =>
      if 0 < diff.added.length then
        let fNew : Tok := ⟨jsSlice f0.text 0 sOff ++ diff.added, f0.annotations⟩
        -- when the selection has a single element, firstToken and lastToken alias
        let lNew : Tok := match rest.getLast? with
          | none => ⟨jsSliceFrom fNew.text eOff, f0.annotations⟩
          | some l0 => ⟨jsSliceFrom l0.text eOff, l0.annotations⟩
        let fFinal : Tok := match rest.getLast? with | none => lNew | some _ => fNew
        let u2 := setAt (setAt tokens sIdx fFinal) eIdx lNew
        let u3 := if 2 < (f0 :: rest).length
          then spliceOut u2 (jsClamp u2.length (sIdx + 1)) ((f0 :: rest).length - 2) else u2
        some ⟨u3.filter (fun t => 0 < t.text.length), tsFlat u3⟩
      else if 0 < diff.removed.length then
        let fNew : Tok := ⟨jsSlice f0.text 0 sOff, f0.annotations⟩
        let lNew : Tok := match rest.getLast? with
          | none => ⟨jsSliceFrom fNew.text eOff, f0.annotations⟩
          | some l0 => ⟨jsSliceFrom l0.text eOff, l0.annotations⟩
        let fFinal : Tok := match rest.getLast? with | none => lNew | some _ => fNew
        let u2 := setAt (setAt tokens sIdx fFinal) eIdx lNew
        let u3 := if 2 < (f0 :: rest).length
          then spliceOut u2 (jsClamp u2.length (sIdx + 1)) ((f0 :: rest).length - 2) else u2
        some ⟨u3.filter (fun t => 0 < t.text.length), tsFlat u3⟩
      else
        some ⟨tokens.filter (fun t => 0 < t.text.length), tsFlat tokens⟩

/-- `updateTokens` (RichTextInput.tsx:285): apply a text diff to the run
list.  `none` models a thrown `TypeError` or an implicit `undefined`
return that the caller destructures. -/
def updateTokens (tokens : List Tok) (diff : DiffT) : Option UpdRes :=
  let plain := tsFlat tokens
  if plain.length ≤ diff.start then
    if 0 < diff.added.length then
      match tokens.getLast? with
      | none => none
      | some lt =>
        let updated := tokens.dropLast ++ [(⟨lt.text ++ diff.added, lt.annotations⟩ : Tok)]
        some ⟨updated.filter (fun t => 0 < t.text.length), tsFlat updated⟩
    else if 0 < diff.removed.length then
      match tokens.getLast? with
      | none => none
      | some lt =>
        let updated := tokens.dropLast
          ++ [(⟨lt.text.take (lt.text.length - diff.removed.length), lt.annotations⟩ : Tok)]
        some ⟨updated.filter (fun t => 0 < t.text.length), tsFlat updated⟩
    else updateTokensCore tokens diff
  else updateTokensCore tokens diff

/-- `insertToken` (RichTextInput.tsx:230): insert a styled run at a
collapsed position; the located run is split with a `≤` walk. -/
def insertToken (tokens : List Tok) (index : Nat) (anns : Annotations) (text : Str) :
    Option (List Tok) :=
  let plain := tsFlat tokens
  if plain.length = index then
    match tokens.getLast? with
    | none => none
    | some lt =>
      let updated := tokens ++ [(⟨text, concileAnnotations lt.annotations anns⟩ : Tok)]
      some (updated.filter (fun t => 0 < t.text.length))
  else
    let sW := walkLe tokens (index : Int)
    match sW.2 with
    | none => none -- startToken undefined: .text access throws
    | some (si, stok) =>
      let sOff := sW.1
      let firstTok : Tok := ⟨jsSlice stok.text 0 sOff, stok.annotations⟩
      let middleTok : Tok := ⟨text, concileAnnotations stok.annotations anns⟩
      let lastTok : Tok := ⟨jsSlice stok.text sOff stok.text.length, stok.annotations⟩
      let updated := tokens.take si ++ [firstTok, middleTok, lastTok] ++ tokens.drop (si + 1)
      some (updated.filter (fun t => 0 < t.text.length))

/-- The shape of a pattern's `regex` field: the default table only uses
`X([^X]+)X` with a one-character literal (`sym1`), `XX([^X]+)XX`
(`dbl`, the underline pattern), or JS `null` (`Option.none`). -/
inductive RegexSpec where
  | sym1 (c : Char)
  | dbl (c : Char)
deriving DecidableEq, Repr

/-- A pattern-table entry (`Pattern` in the source; the `render` tag is
UI-only and omitted). -/
structure Pattern where
  style : String
  regex : Option RegexSpec
  opening : Option Str
  closing : Option Str
deriving DecidableEq, Repr

/-- The backtick character (of the `code` pattern). -/
def btick : Char := Char.ofNat 96

/-- The default pattern table (RichTextInput.tsx:47). -/
def PATTERNS : List Pattern :=
  [⟨"bold", some (.sym1 '*'), some ['*'], some ['*']⟩,
   ⟨"italic", some (.sym1 '_'), some ['_'], some ['_']⟩,
   ⟨"lineThrough", some (.sym1 '~'), some ['~'], some ['~']⟩,
   ⟨"code", some (.sym1 btick), some [btick], some [btick]⟩,
   ⟨"underline", some (.dbl '_'), some ['_', '_'], some ['_', '_']⟩,
   ⟨"heading", none, some ['#'], none⟩,
   ⟨"subHeading", none, some ['#', '#'], none⟩,
   ⟨"subSubHeading", none, some ['#', '#', '#'], none⟩]

/-- `parseTokens` (RichTextInput.tsx:209), the serializer, applied to one
run: collect `pattern.opening` for every pattern whose style is truthy in
the run's annotations, then fold, wrapping the text with each collected
literal on both sides (an `undefined` literal is template-stringified). -/
def serializeTok (patterns : List Pattern) (t : Tok) : Str :=
  let wrappers := patterns.foldl
    (fun ws p => if jsTruthy (jsGet t.annotations p.style) then ws ++ [p.opening] else ws) []
  wrappers.foldl (fun children w => jsStr w ++ children ++ jsStr w) t.text

/-- `parseTokens` (RichTextInput.tsx:209): serialize a run list back to a
delimited markup string. -/
def parseTokens (ts : List Tok) (patterns : List Pattern) : Str :=
  (ts.map (serializeTok patterns)).foldl (fun acc x => acc ++ x) []

/-- The character loop of one parser pass of `parseRichTextStringV2`
(RichTextInput.tsx:176-198): the loop iterates over the pass-entry value of
`copyOfString` while reassigning it; `evenCount` is never reset after a
match.  On a match, `indexOf` is taken on the current working copy and the
span is delegated to `splitTokens` (the direct reassignment of
`copyOfString` from slices in the source is dead, being overwritten by
`plain_text`). -/
def parsePassChars (p : Pattern) (opn cls : Str) :
    List Char → Nat → Str → List Tok → Option (Str × List Tok)
  | [], _, copy, toks => some (copy, toks)
  | c :: cs, ec, copy, toks =>
    let ec2 := if ec < 2 ∧ [c] = opn then ec + 1 else ec
    if ec2 = 2 ∧ [c] = cls then
      let oi := jsIndexOf copy opn
      let ci := jsIndexOfFrom copy cls (oi + 1)
      match splitTokens toks oi ci [(p.style, AVal.b true)] (some opn) with
      | none => none
      | some r => parsePassChars p opn cls cs ec2 r.plain_text r.result
    else parsePassChars p opn cls cs ec2 copy toks

/-- One pattern pass of the parser: only patterns with both literals
truthy (non-empty) can match; `evenCount` starts at 0 for each pass. -/
def parsePass (st : Str × List Tok) (p : Pattern) : Option (Str × List Tok) :=
  match p.opening, p.closing with
  | some opn, some cls =>
    if opn.isEmpty || cls.isEmpty then some st
    else parsePassChars p opn cls st.1 0 st.1 st.2
  | _, _ => some st

/-- `parseRichTextStringV2` (RichTextInput.tsx:166): start from a single
unannotated run holding the whole string and run one pass per pattern;
returns `(tokens, plain_text)`. -/
def parseRichTextStringV2 (s : Str) (patterns : List Pattern) :
    Option (List Tok × Str) :=
  (patterns.foldlM (fun st p => parsePass st p) (s, [(⟨s, []⟩ : Tok)])).map
    (fun st => (st.2, st.1))

/-- Leftmost match of the regex `c([^c]+)c` (as run by `findMatch`,
RichTextInput.tsx:74): returns `(start, end)` with `end` one past the
closing literal.  A candidate start whose very next character is again `c`
fails (empty content) and the engine retries from the following
position. -/
def findSym (c : Char) : Str → Nat → Option (Nat × Nat)
  | [], _ => none
  | x :: xs, pos =>
    if x = c then
      match idxOf xs [c] with
      | some k => if 1 ≤ k then some (pos, pos + k + 2) else findSym c xs (pos + 1)
      | none => none
    else findSym c xs (pos + 1)

/-- Leftmost match of the regex `cc([^c]+)cc` (the underline pattern);
since `[^c]+` cannot shrink onto a `c`, the match requires the maximal
non-`c` run after the two openers to be non-empty and followed by `cc`. -/
def findDbl (c : Char) : Str → Nat → Option (Nat × Nat)
  | [], _ => none
  | [_], _ => none
  | x :: y :: xs, pos =>
    if x = c ∧ y = c then
      let r := (xs.takeWhile (fun ch => ch != c)).length
      if 1 ≤ r ∧ (xs.drop r).take 2 = [c, c] then some (pos, pos + r + 4)
      else findDbl c (y :: xs) (pos + 1)
    else findDbl c (y :: xs) (pos + 1)

/-- `findMatch(str, pattern.regex)` for one pattern: a `null` regex builds
`new RegExp(null)`, i.e. `/null/`, matching the literal text `"null"`. -/
def findMatchFor (p : Pattern) (s : Str) : Option (Nat × Nat) :=
  match p.regex with
  | some (.sym1 c) => findSym c s 0
  | some (.dbl c) => findDbl c s 0
  | none => (idxOf s "null".toList).map (fun i => (i, i + 4))

/-- The pattern scan at the top of `handleOnChangeText`
(RichTextInput.tsx:758): the first pattern whose regex matches wins. -/
def findFirstMatch : List Pattern → Str → Option (Pattern × Nat × Nat)
  | [], _ => none
  | p :: ps, s =>
    match findMatchFor p s with
    | some m => some (p, m)
    | none => findFirstMatch ps s

/-- The opening literal `getRequiredLiterals` extracts from a pattern's
regex source string: the first literal character before the capturing
group (`"\\*([^*]+)\\*"` yields `"*"`; `"__([^_]+)__"` yields a single
`"_"`). -/
def regexOpening : RegexSpec → Str
  | .sym1 c => [c]
  | .dbl c => [c]

/-- The `toSplit` pending-style record. -/
structure PendingSt where
  start : Nat
  finish : Nat
  anns : Annotations
deriving DecidableEq, Repr

/-- Component state relevant to the editing core: the run list, the
previous-text ref, the pending style, and the latest selection. -/
structure MachineSt where
  tokens : List Tok
  prevText : Str
  toSplit : PendingSt
  selStart : Nat
  selEnd : Nat
deriving DecidableEq, Repr

/-- Whether a pending delta is armed (`Object.values(...).some(Boolean)`). -/
def pendingArmed (ps : PendingSt) : Bool := ps.anns.any (fun kv => jsTruthy kv.2)

/-- `handleOnChangeText` (RichTextInput.tsx:753): regex-match branch
first (a matched `null` regex then crashes inside `getRequiredLiterals`),
then the pending-style insertion branch, then the default update.  The
default update does not reset `toSplit`. -/
def stepChangeText (patterns : List Pattern) (st : MachineSt) (next : Str) :
    Option MachineSt :=
  let d := diffStrings st.prevText next
  match findFirstMatch patterns next with
  | some (p, mstart, mend) =>
    match p.regex with
    | none => none -- getRequiredLiterals(null) throws
    | some rs =>
      match splitTokens st.tokens (mstart : Int) ((mend : Int) - 1)
          [(p.style, AVal.b true)] (some (regexOpening rs)) with
      | none => none
      | some r =>
        some { st with tokens := concatTokens r.result, prevText := tsFlat r.result }
  | none =>
    if pendingArmed st.toSplit ∧ d.start = st.toSplit.start ∧ d.start = st.toSplit.finish then
      match insertToken st.tokens d.start st.toSplit.anns d.added with
      | none => none
      | some res =>
        some { st with tokens := concatTokens res, prevText := tsFlat res,
                       toSplit := ⟨0, 0, []⟩ }
    else
      match updateTokens st.tokens d with
      | none => none
      | some u =>
        some { st with tokens := concatTokens u.updatedTokens, prevText := u.plain_text }

/-- `toggleStyle` (RichTextInput.tsx:831): a collapsed selection merges the
style into the pending delta at the anchor; a non-collapsed selection arms
the pending delta just after the selection and applies `splitTokens` over
it (the previous-text ref is not touched). -/
def stepToggle (st : MachineSt) (style : String) : Option MachineSt :=
  let s := st.selStart
  let e := st.selEnd
  if s = e then
    some { st with toSplit := ⟨s, e, concileAnnotations st.toSplit.anns [(style, .b true)]⟩ }
  else
    let ts2 : PendingSt := if s < e
      then ⟨e, e, concileAnnotations st.toSplit.anns [(style, .b true)]⟩
      else st.toSplit
    match splitTokens st.tokens (s : Int) (e : Int) [(style, .b true)] none with
    | none => none
    | some r => some { st with tokens := concatTokens r.result, toSplit := ts2 }

/-- The non-collapsed style toggle as invoked by `toggleStyle`: a
single-key delta applied by `splitTokens` over the selection, followed by
the `concatTokens` merge pass. -/
def toggleStyleOp (S : String) (ts : List Tok) (s e : Nat) : Option (List Tok) :=
  (splitTokens ts (s : Int) (e : Int) [(S, .b true)] none).map (fun r => concatTokens r.result)

/-- Modelled from the amended claim wording for the serializer: for each
pattern in table order whose style key is truthy in the run's annotations,
wrap the text with that pattern's opening literal on both sides (the
closing literal is unused; a missing opening is stringified to
`"undefined"`). -/
def specSerializeTok (patterns : List Pattern) (t : Tok) : Str :=
  (patterns.filter (fun p => jsTruthy (jsGet t.annotations p.style))).foldl
    (fun children p => jsStr p.opening ++ children ++ jsStr p.opening) t.text

/-- The amended C2 adjacency property between two neighbouring runs: it is
not the case that the earlier run's key set is non-empty with every one of
its keys mapping to an equal value in the later run (in particular the two
mappings are not point-wise equal with a non-empty key set). -/
def tokPairOk (x y : Tok) : Prop :=
  ¬(annKeys x.annotations ≠ [] ∧
    ∀ k ∈ annKeys x.annotations, jsGet x.annotations k = jsGet y.annotations k)

/-- The merge condition of `concatStep` as a standalone predicate: the last
accumulated run has a non-empty key set and each of its keys maps to an
`===`-equal value in the incoming run. -/
def mergeTest (prev cur : Tok) : Bool :=
  !(annKeys prev.annotations).isEmpty &&
    (annKeys prev.annotations).all
      (fun k => decide (jsGet prev.annotations k = jsGet cur.annotations k))

/-- The `allHaveStyle` test of the cross-token branch of `splitTokens`: every
selected run maps the style key to `.b true`. -/
def c5AllHave (M : List Tok) (stok etok : Tok) (S : String) : Bool :=
  (stok :: (M ++ [etok])).all (fun t => decide (jsGet t.annotations S = AVal.b true))

/-- The run list produced by the cross-token branch of `splitTokens`, spelled
out piece by piece (before the empty-text filter). -/
def c5Pieces (A M B : List Tok) (stok etok : Tok) (S : String) (sOff eOff : Nat) : List Tok :=
  A ++ [⟨stok.text.take sOff, setKey stok.annotations S (jsGet stok.annotations S)⟩,
        ⟨stok.text.drop sOff, setKey stok.annotations S (.b (!c5AllHave M stok etok S))⟩]
    ++ M.map (fun t => (⟨t.text, setKey t.annotations S (.b (!c5AllHave M stok etok S))⟩ : Tok))
    ++ [⟨etok.text.take eOff, setKey etok.annotations S (.b (!c5AllHave M stok etok S))⟩,
        ⟨etok.text.drop eOff, setKey etok.annotations S (jsGet etok.annotations S)⟩]
    ++ B



/-- C1 (code_bug): on the well-formed run list `["ab"(bold), "cd"]` with
previous flat text `"abcd"`, the diff for pasting `"XYZ"` at offset 1 is a
pure insertion, yet `updateTokens` followed by the merge pass yields runs
concatenating to `"aXYZ"`, not the next flat text `"aXYZbcd"`: the
concatenation invariant is violated (the tail `"bcd"` is lost). -/
theorem c1_updateTokens_concat_violation :
    diffStrings "abcd".toList "aXYZbcd".toList = ⟨1, [], "XYZ".toList⟩ ∧
    (updateTokens [⟨"ab".toList, [("bold", AVal.b true)]⟩, ⟨"cd".toList, []⟩]
        (diffStrings "abcd".toList "aXYZbcd".toList)).map
      (fun u => tsFlat (concatTokens u.updatedTokens)) = some "aXYZ".toList ∧
    "aXYZ".toList ≠ "aXYZbcd".toList := by decide

/-- C9 (code_bug): `updateTokens` on the single well-formed run `["ab"]`
with the diff of pasting `"XYZ"` at offset 1 (a pure insertion produced by
`diffStrings`) throws a `TypeError` (modelled by `none`): the end-locate
walks past the end because the end offset is computed from the longer of
`removed`/`added`, leaving an empty selected slice whose first element is
accessed. -/
theorem c9_updateTokens_crash :
    diffStrings "ab".toList "aXYZb".toList = ⟨1, [], "XYZ".toList⟩ ∧
    updateTokens [⟨"ab".toList, []⟩] (diffStrings "ab".toList "aXYZb".toList) = none := by decide

/-- C2 counterexample: deleting the styled `"x"` of `["a", "x"(bold), "b"]`
(a run list produced by parsing `"a*x*b"`) and merging leaves two adjacent
runs both carrying the empty annotation mapping — point-wise equal with
identical key sets — because the merge pass never merges a run whose key
set is empty. -/
theorem c2_adjacent_dup_counterexample :
    (updateTokens [⟨"a".toList, []⟩, ⟨"x".toList, [("bold", AVal.b true)]⟩, ⟨"b".toList, []⟩]
        (diffStrings "axb".toList "ab".toList)).map
      (fun u => (concatTokens u.updatedTokens).map Tok.annotations) = some [[], []] := by decide

/-- C3 counterexample: `"*ab*x*c*"` is a balanced, non-nested string of
the default table, yet serializing its parse yields `"*a**b*x*c*"`:
the parser's never-reset `evenCount` produces a ghost match at the third
`*` of the original string, splitting the first bold run in two. -/
theorem c3_roundtrip_counterexample :
    (parseRichTextStringV2 "*ab*x*c*".toList PATTERNS).map
        (fun r => parseTokens r.1 PATTERNS) = some "*a**b*x*c*".toList ∧
    "*a**b*x*c*".toList ≠ "*ab*x*c*".toList := by decide

/-- C4 counterexample: over the mixed-state selection `[0,2)` of
`["a"(bold), "b"]`, toggling bold twice ends with bold false at position 0
where it was originally true — the uniform-toggle normalization loses the
mixed state, so the double toggle does not restore the span. -/
theorem c4_toggle_counterexample :
    (toggleStyleOp "bold" [⟨"a".toList, [("bold", AVal.b true)]⟩, ⟨"b".toList, []⟩] 0 2).bind
        (fun r1 => toggleStyleOp "bold" r1 0 2)
      = some [⟨"ab".toList, [("bold", AVal.b false)]⟩] ∧
    jsTruthy (jsGet (posAnn [⟨"a".toList, [("bold", AVal.b true)]⟩, ⟨"b".toList, []⟩] 0) "bold")
      = true ∧
    jsTruthy (jsGet (posAnn [⟨"ab".toList, [("bold", AVal.b false)]⟩] 0) "bold") = false := by
  decide

/-- C6 counterexample: `"abb"` is `"ab"` with the substring `"b"` inserted
at position 1, yet `diffStrings` reports `start = 2`, not the insertion
point 1. -/
theorem c6_diff_start_counterexample :
    "abb".toList = "ab".toList.take 1 ++ "b".toList ++ "ab".toList.drop 1 ∧
    (diffStrings "ab".toList "abb".toList).start = 2 ∧ (2 : Nat) ≠ 1 := by decide

/-- C7 counterexample: for a pattern with opening `"("` and closing `")"`,
a truthy run serializes to `"(t("` — the opening literal is used on both
sides — not to `"(t)"` as `opening + text + closing` would give. -/
theorem c7_serializer_counterexample :
    parseTokens [⟨"t".toList, [("paren", AVal.b true)]⟩]
        [⟨"paren", none, some ['('], some [')']⟩] = "(t(".toList ∧
    "(t(".toList ≠ "(t)".toList := by decide

/-- C8 counterexample: arm italic at collapsed offset 3 of `"abc"`, then
edit at offset 0 (diff start 0 ≠ anchor 3): the pending delta is NOT
discarded — it survives, and the second, later insertion at offset 3
receives the italic styling. -/
theorem c8_pending_counterexample :
    (stepToggle ⟨[⟨"abc".toList, []⟩], "abc".toList, ⟨0, 0, []⟩, 3, 3⟩ "italic").bind
        (fun s1 => (stepChangeText PATTERNS s1 "xabc".toList).map
          (fun s2 => (s2.toSplit, stepChangeText PATTERNS s2 "xabYc".toList)))
      = some (⟨3, 3, [("italic", AVal.b true)]⟩,
          some ⟨[⟨"xab".toList, []⟩, ⟨"Y".toList, [("italic", AVal.b true)]⟩, ⟨"c".toList, []⟩],
                "xabYc".toList, ⟨0, 0, []⟩, 3, 3⟩) := by decide

/-- C10: in `concatTokens`, an incoming run is absorbed into the preceding
accumulated run exactly when the preceding run's annotation key set is
non-empty and every one of its keys maps to a `===`-equal value in the
incoming run's annotations; the absorbed text takes on the preceding run's
annotations (any additional keys of the incoming run are discarded). -/
theorem c10_subset_absorption (ts : List Tok) (t prev : Tok)
    (h : (concatTokens ts).getLast? = some prev) :
    concatTokens (ts ++ [t]) =
      if annKeys prev.annotations ≠ [] ∧
          ∀ k ∈ annKeys prev.annotations, jsGet prev.annotations k = jsGet t.annotations k
      then (concatTokens ts).dropLast ++ [⟨prev.text ++ t.text, prev.annotations⟩]
      else concatTokens ts ++ [t] := by
  have hstep : concatTokens (ts ++ [t]) = concatStep (concatTokens ts) t := by
    simp [concatTokens, List.foldl_append]
  have hunfold : concatStep (concatTokens ts) t =
      if (!(annKeys prev.annotations).isEmpty && (annKeys prev.annotations).all
          (fun k => decide (jsGet prev.annotations k = jsGet t.annotations k))) = true
      then (concatTokens ts).dropLast ++ [⟨prev.text ++ t.text, prev.annotations⟩]
      else concatTokens ts ++ [t] := by
    rw [concatStep, h]
  rw [hstep, hunfold]
  by_cases hc : annKeys prev.annotations ≠ [] ∧
      ∀ k ∈ annKeys prev.annotations, jsGet prev.annotations k = jsGet t.annotations k
  · rw [if_pos hc]
    have h1 : (!(annKeys prev.annotations).isEmpty) = true := by
      cases hk : annKeys prev.annotations with
      | nil => exact absurd hk hc.1
      | cons a l => simp [hk]
    have h2 : ((annKeys prev.annotations).all
        (fun k => decide (jsGet prev.annotations k = jsGet t.annotations k))) = true := by
      rw [List.all_eq_true]
      intro k hk
      simp [hc.2 k hk]
    rw [if_pos]
    rw [h1, h2]
    rfl
  · rw [if_neg hc]
    have hcond : (!(annKeys prev.annotations).isEmpty && (annKeys prev.annotations).all
        (fun k => decide (jsGet prev.annotations k = jsGet t.annotations k))) = false := by
      rw [not_and_or] at hc
      rcases hc with hc | hc
      · have hk : annKeys prev.annotations = [] := not_not.mp hc
        simp [hk]
      · have h2 : ((annKeys prev.annotations).all
            (fun k => decide (jsGet prev.annotations k = jsGet t.annotations k))) = false := by
          rcases hb : ((annKeys prev.annotations).all
              (fun k => decide (jsGet prev.annotations k = jsGet t.annotations k))) with _ | _
          · rfl
          · rw [List.all_eq_true] at hb
            exact absurd (fun k hk => by simpa using hb k hk) hc
        simp [h2]
    simp [hcond]

/-- Witness for C10: an incoming run carrying the additional key `italic`
beyond the preceding run's `{bold}` key set is still absorbed, and the
extra annotation is discarded. -/
theorem c10_subset_absorption_witness :
    concatTokens [⟨"a".toList, [("bold", AVal.b true)]⟩,
        ⟨"b".toList, [("bold", AVal.b true), ("italic", AVal.b true)]⟩]
      = [⟨"ab".toList, [("bold", AVal.b true)]⟩] := by
  have h := c10_subset_absorption [⟨"a".toList, [("bold", AVal.b true)]⟩]
    ⟨"b".toList, [("bold", AVal.b true), ("italic", AVal.b true)]⟩
    ⟨"a".toList, [("bold", AVal.b true)]⟩ (by decide)
  rw [if_pos (by decide)] at h
  simpa using h

/-- One `concatTokens` step preserves the amended adjacency invariant. -/
theorem concatStep_chain (acc : List Tok) (t : Tok)
    (h : List.Chain' tokPairOk acc) : List.Chain' tokPairOk (concatStep acc t) := by
  rw [concatStep]
  cases hl : acc.getLast? with
  | none =>
    have hacc : acc = [] := by simpa using hl
    subst hacc
    simp
  | some prev =>
    obtain ⟨l', rfl⟩ : ∃ l', acc = l' ++ [prev] := by
      rcases acc.eq_nil_or_concat with h0 | ⟨l2, a, h2⟩
      · subst h0; simp at hl
      · subst h2
        rw [List.concat_eq_append] at hl ⊢
        rw [List.getLast?_concat] at hl
        refine ⟨l2, ?_⟩
        congr 1
        simpa using hl
    rw [List.chain'_append] at h
    obtain ⟨h1, _, h3⟩ := h
    cases hcond : (!(annKeys prev.annotations).isEmpty && (annKeys prev.annotations).all
        (fun k => decide (jsGet prev.annotations k = jsGet t.annotations k))) with
    | true =>
      simp only [hcond, if_true, List.dropLast_concat]
      rw [List.chain'_append]
      refine ⟨h1, by simp, ?_⟩
      intro x hx y hy
      simp at hy
      subst hy
      exact h3 x hx prev (by simp)
    | false =>
      simp only [hcond, Bool.false_eq_true, if_false]
      rw [List.chain'_append]
      refine ⟨by rw [List.chain'_append]; exact ⟨h1, by simp, h3⟩, by simp, ?_⟩
      intro x hx y hy
      simp at hy
      subst hy
      rw [List.getLast?_concat] at hx
      simp at hx
      subst hx
      intro hbad
      rw [Bool.and_eq_false_iff] at hcond
      rcases hcond with hc | hc
      · simp at hc
        exact hbad.1 hc
      · have : ((annKeys prev.annotations).all
            (fun k => decide (jsGet prev.annotations k = jsGet t.annotations k))) = true := by
          rw [List.all_eq_true]
          intro k hk
          simp [hbad.2 k hk]
        rw [this] at hc
        exact absurd hc (by simp)

/-- C2 (amended): after the `concatTokens` merge pass, no two adjacent
runs are such that the earlier run's annotation key set is non-empty and
subset-matches the later run's mapping; hence no two adjacent runs have
point-wise-equal mappings with a non-empty key set.  (Two adjacent runs
whose mappings are both empty may remain: the empty key set never
merges.) -/
theorem c2_concat_no_nonempty_adjacent_dup (ts : List Tok) :
    List.Chain' tokPairOk (concatTokens ts) := by
  suffices h : ∀ acc, List.Chain' tokPairOk acc →
      List.Chain' tokPairOk (List.foldl concatStep acc ts) from h [] (by simp)
  induction ts with
  | nil => intro acc h; simpa using h
  | cons t ts ih => intro acc h; exact ih _ (concatStep_chain acc t h)

/-- The wrapper-collecting fold of the serializer builds exactly the
openings of the patterns passing the truthiness test, in table order. -/
theorem foldl_wrappers (cond : Pattern → Bool) :
    ∀ (ps : List Pattern) (init : List (Option Str)),
      ps.foldl (fun ws p => if cond p then ws ++ [p.opening] else ws) init
        = init ++ (ps.filter cond).map Pattern.opening
  | [], init => by simp
  | p :: ps, init => by
    simp only [List.foldl_cons]
    by_cases h : cond p
    · rw [if_pos h, foldl_wrappers cond ps (init ++ [p.opening])]
      simp [h]
    · rw [if_neg h, foldl_wrappers cond ps init]
      simp [h]

/-- Per-run agreement between the source serializer and the amended
specification-side description. -/
theorem serializeTok_eq_spec (patterns : List Pattern) (t : Tok) :
    serializeTok patterns t = specSerializeTok patterns t := by
  rw [serializeTok, specSerializeTok, foldl_wrappers, List.nil_append, List.foldl_map]

/-- C7 (amended): the serializer produces, for each run in order, the
run's text wrapped as `opening + text + opening` (the opening literal on
both sides; the closing literal is never used) for every pattern in table
order whose style key is truthy, as a fold; a pattern lacking an opening
literal wraps with the template-stringified text `"undefined"` rather than
being skipped; the per-run strings are concatenated. -/
theorem c7_serializer_characterization (ts : List Tok) (patterns : List Pattern) :
    parseTokens ts patterns
      = (ts.map (specSerializeTok patterns)).foldl (fun acc x => acc ++ x) [] := by
  rw [parseTokens, funext (serializeTok_eq_spec patterns)]

/-- The common-prefix scan of a string with itself runs to the end. -/
theorem cpl_self : ∀ l : Str, commonPrefixLen l l = l.length
  | [] => rfl
  | c :: cs => by simp [commonPrefixLen, cpl_self cs]

/-- The common-prefix length is bounded by the first string. -/
theorem cpl_le_left : ∀ a b : Str, commonPrefixLen a b ≤ a.length
  | [], _ => by simp [commonPrefixLen]
  | _ :: _, [] => by simp [commonPrefixLen]
  | x :: xs, y :: ys => by
    rw [commonPrefixLen]
    by_cases h : x = y
    · rw [if_pos h]
      simpa using cpl_le_left xs ys
    · rw [if_neg h]
      simp

/-- The common-prefix scan is symmetric. -/
theorem cpl_comm : ∀ a b : Str, commonPrefixLen a b = commonPrefixLen b a
  | [], _ => by cases ‹Str› <;> rfl
  | _ :: _, [] => rfl
  | x :: xs, y :: ys => by
    rw [commonPrefixLen, commonPrefixLen]
    by_cases h : x = y
    · rw [if_pos h, if_pos h.symm, cpl_comm xs ys]
    · rw [if_neg h, if_neg (fun hyx => h hyx.symm)]

/-- Both strings agree on their first `commonPrefixLen` characters. -/
theorem cpl_take : ∀ a b : Str, a.take (commonPrefixLen a b) = b.take (commonPrefixLen a b)
  | [], b => by simp [commonPrefixLen]
  | _ :: _, [] => by simp [commonPrefixLen]
  | x :: xs, y :: ys => by
    rw [commonPrefixLen]
    by_cases h : x = y
    · rw [if_pos h]
      simp [h, cpl_take xs ys]
    · rw [if_neg h]
      simp

/-- A shared leading block adds to the common-prefix length. -/
theorem cpl_append : ∀ (A B C : Str),
    commonPrefixLen (A ++ B) (A ++ C) = A.length + commonPrefixLen B C
  | [], B, C => by simp
  | a :: A, B, C => by
    rw [List.cons_append, List.cons_append, commonPrefixLen, if_pos rfl, cpl_append A B C,
      List.length_cons]
    omega

/-- Maximality: any agreeing prefix length bounds `commonPrefixLen` from
below. -/
theorem cpl_ge_of_take : ∀ (k : Nat) (a b : Str), k ≤ a.length → k ≤ b.length →
    a.take k = b.take k → k ≤ commonPrefixLen a b
  | 0, _, _, _, _, _ => Nat.zero_le _
  | k + 1, [], _, ha, _, _ => by simp at ha
  | k + 1, _ :: _, [], _, hb, _ => by simp at hb
  | k + 1, x :: xs, y :: ys, ha, hb, ht => by
    simp only [List.take_succ_cons, List.cons.injEq] at ht
    rw [commonPrefixLen, if_pos ht.1]
    have := cpl_ge_of_take k xs ys (by simpa using ha) (by simpa using hb) ht.2
    omega

/-- Identical snapshots diff to an empty edit at the end. -/
theorem diffStrings_self (s : Str) : diffStrings s s = ⟨s.length, [], []⟩ := by
  rw [diffStrings]
  simp [cpl_self]

/-- Swapping the arguments of `diffStrings` swaps `removed` and `added`. -/
theorem diff_swap (a b : Str) :
    diffStrings b a = ⟨(diffStrings a b).start, (diffStrings a b).added, (diffStrings a b).removed⟩ := by
  rw [diffStrings, diffStrings]
  simp only [cpl_comm b a]
  rw [cpl_comm (b.drop (commonPrefixLen a b)).reverse (a.drop (commonPrefixLen a b)).reverse]

/-- `diffStrings` with its let-bindings unfolded. -/
theorem diffStrings_eq (prev next : Str) :
    diffStrings prev next =
      ⟨commonPrefixLen prev next,
       (prev.drop (commonPrefixLen prev next)).take
         ((prev.drop (commonPrefixLen prev next)).length
           - commonPrefixLen (prev.drop (commonPrefixLen prev next)).reverse
               (next.drop (commonPrefixLen prev next)).reverse),
       (next.drop (commonPrefixLen prev next)).take
         ((next.drop (commonPrefixLen prev next)).length
           - commonPrefixLen (prev.drop (commonPrefixLen prev next)).reverse
               (next.drop (commonPrefixLen prev next)).reverse)⟩ := rfl

/-- The diff of a single contiguous insertion: nothing removed, and the
reported `added` is the spliced block shifted to the computed `start`. -/
theorem diff_insert (A I B : Str) :
    diffStrings (A ++ B) (A ++ I ++ B)
      = ⟨A.length + commonPrefixLen B (I ++ B), [],
          ((I ++ B).drop (commonPrefixLen B (I ++ B))).take I.length⟩ := by
  have hassoc : A ++ I ++ B = A ++ (I ++ B) := List.append_assoc A I B
  rw [hassoc, diffStrings_eq]
  have hcB : commonPrefixLen B (I ++ B) ≤ B.length := cpl_le_left _ _
  have hst : commonPrefixLen (A ++ B) (A ++ (I ++ B))
      = A.length + commonPrefixLen B (I ++ B) := cpl_append A B (I ++ B)
  rw [hst, List.drop_append, List.drop_append]
  set c := commonPrefixLen B (I ++ B) with hc
  set p := B.drop c with hpdef
  set n := (I ++ B).drop c with hndef
  have hpn : p = n.drop I.length := by
    rw [hndef, List.drop_drop]
    have h2 : c + I.length = I.length + c := by omega
    rw [h2, List.drop_append, hpdef]
  have hlenp : p.length = B.length - c := by rw [hpdef, List.length_drop]
  have hlenn : n.length = I.length + B.length - c := by
    rw [hndef, List.length_drop, List.length_append]
  have hsuf : commonPrefixLen p.reverse n.reverse = p.length := by
    apply Nat.le_antisymm
    · have h := cpl_le_left p.reverse n.reverse
      simpa using h
    · apply cpl_ge_of_take
      · simp
      · rw [List.length_reverse]
        omega
      · have h1 : p.reverse.take p.length = p.reverse := by
          apply List.take_of_length_le
          simp
        have h2 : n.reverse.take p.length = p.reverse := by
          have h3 : p.reverse = n.reverse.take (n.length - I.length) := by
            rw [hpn, List.reverse_drop]
          rw [h3]
          congr 1
          omega
        rw [h1, h2]
  rw [hsuf]
  have hrem : p.take (p.length - p.length) = [] := by simp
  have hadd : n.take (n.length - p.length) = n.take I.length := by
    congr 1
    omega
  rw [hrem, hadd]

/-- The diff of a single contiguous deletion adds nothing. -/
theorem diff_delete (A D B : Str) :
    (diffStrings (A ++ D ++ B) (A ++ B)).added = [] := by
  rw [diff_swap (A ++ B) (A ++ D ++ B), diff_insert]

/-- C6 (amended): identical strings yield `removed = added = []`; for a
single contiguous insertion `removed = []` and the result describes a
valid insertion of `added` at offset `start` (though `start` need not be
the given insertion point); for a single contiguous deletion
`added = []`. -/
theorem c6_diff_degenerate_cases :
    (∀ s : Str, diffStrings s s = ⟨s.length, [], []⟩) ∧
    (∀ A I B : Str,
      (diffStrings (A ++ B) (A ++ I ++ B)).removed = [] ∧
      A ++ I ++ B
        = (A ++ B).take (diffStrings (A ++ B) (A ++ I ++ B)).start
          ++ (diffStrings (A ++ B) (A ++ I ++ B)).added
          ++ (A ++ B).drop (diffStrings (A ++ B) (A ++ I ++ B)).start) ∧
    (∀ A D B : Str, (diffStrings (A ++ D ++ B) (A ++ B)).added = []) := by
  refine ⟨diffStrings_self, ?_, diff_delete⟩
  intro A I B
  rw [diff_insert]
  refine ⟨rfl, ?_⟩
  have hcB : commonPrefixLen B (I ++ B) ≤ B.length := cpl_le_left _ _
  rw [List.take_append, List.drop_append]
  set c := commonPrefixLen B (I ++ B) with hc
  have hpn2 : B.drop c = ((I ++ B).drop c).drop I.length := by
    rw [List.drop_drop]
    have h2 : c + I.length = I.length + c := by omega
    rw [h2, List.drop_append]
  have hTake : B.take c = (I ++ B).take c := cpl_take B (I ++ B)
  rw [hpn2, List.append_assoc, List.append_assoc, List.take_append_drop, hTake,
    List.append_assoc, List.take_append_drop]

/-- C8 (amended): with no regex match on the next text, (1) an armed
pending delta whose anchor equals the diff start (start = end = anchor) is
consumed by `insertToken` and then reset; (2) on any other edit the pending
delta is NOT discarded — the state keeps `toSplit` unchanged, so it can
affect a later insertion; (3) a toggle at a collapsed selection merges the
style into the pending delta via `concileAnnotations` (re-toggling the same
style cancels it) rather than discarding it. -/
theorem c8_pending_lifecycle :
    (∀ (patterns : List Pattern) (st : MachineSt) (next : Str) (res : List Tok),
      findFirstMatch patterns next = none →
      pendingArmed st.toSplit = true →
      (diffStrings st.prevText next).start = st.toSplit.start →
      (diffStrings st.prevText next).start = st.toSplit.finish →
      insertToken st.tokens (diffStrings st.prevText next).start st.toSplit.anns
          (diffStrings st.prevText next).added = some res →
      stepChangeText patterns st next
        = some { st with tokens := concatTokens res, prevText := tsFlat res,
                         toSplit := ⟨0, 0, []⟩ }) ∧
    (∀ (patterns : List Pattern) (st : MachineSt) (next : Str) (u : UpdRes),
      findFirstMatch patterns next = none →
      ¬(pendingArmed st.toSplit = true ∧
        (diffStrings st.prevText next).start = st.toSplit.start ∧
        (diffStrings st.prevText next).start = st.toSplit.finish) →
      updateTokens st.tokens (diffStrings st.prevText next) = some u →
      stepChangeText patterns st next
        = some { st with tokens := concatTokens u.updatedTokens, prevText := u.plain_text }) ∧
    (∀ (st : MachineSt) (style : String),
      st.selStart = st.selEnd →
      stepToggle st style
        = some { st with toSplit := ⟨st.selStart, st.selEnd,
            concileAnnotations st.toSplit.anns [(style, .b true)]⟩ }) := by
  refine ⟨?_, ?_, ?_⟩
  · intro patterns st next res hm ha h1 h2 hins
    rw [stepChangeText, hm]
    rw [if_pos ⟨ha, h1, h2⟩, hins]
  · intro patterns st next u hm hc hupd
    rw [stepChangeText, hm]
    rw [if_neg hc, hupd]
  · intro st style hsel
    rw [stepToggle, if_pos hsel]

/-- Witness for C8: scenario E (type `"d"` at the armed anchor 3 of
`"abc"` — applied and reset), an edit at offset 0 that leaves the pending
delta armed, and a collapsed-selection toggle arming italic. -/
theorem c8_pending_lifecycle_witness :
    stepChangeText PATTERNS
        ⟨[⟨"abc".toList, []⟩], "abc".toList, ⟨3, 3, [("italic", AVal.b true)]⟩, 3, 3⟩
        "abcd".toList
      = some ⟨[⟨"abc".toList, []⟩, ⟨"d".toList, [("italic", AVal.b true)]⟩],
              "abcd".toList, ⟨0, 0, []⟩, 3, 3⟩ ∧
    stepChangeText PATTERNS
        ⟨[⟨"abc".toList, []⟩], "abc".toList, ⟨3, 3, [("italic", AVal.b true)]⟩, 3, 3⟩
        "xabc".toList
      = some ⟨[⟨"xabc".toList, []⟩], "xabc".toList, ⟨3, 3, [("italic", AVal.b true)]⟩, 3, 3⟩ ∧
    stepToggle ⟨[⟨"abc".toList, []⟩], "abc".toList, ⟨0, 0, []⟩, 3, 3⟩ "italic"
      = some ⟨[⟨"abc".toList, []⟩], "abc".toList, ⟨3, 3, [("italic", AVal.b true)]⟩, 3, 3⟩ := by
  refine ⟨?_, ?_, ?_⟩
  · exact (c8_pending_lifecycle.1 PATTERNS
      ⟨[⟨"abc".toList, []⟩], "abc".toList, ⟨3, 3, [("italic", AVal.b true)]⟩, 3, 3⟩
      "abcd".toList [⟨"abc".toList, []⟩, ⟨"d".toList, [("italic", AVal.b true)]⟩]
      (by decide) (by decide) (by decide) (by decide) (by decide)).trans (by decide)
  · exact (c8_pending_lifecycle.2.1 PATTERNS
      ⟨[⟨"abc".toList, []⟩], "abc".toList, ⟨3, 3, [("italic", AVal.b true)]⟩, 3, 3⟩
      "xabc".toList ⟨[⟨"xabc".toList, []⟩], "xabc".toList⟩
      (by decide) (by decide) (by decide)).trans (by decide)
  · exact (c8_pending_lifecycle.2.2
      ⟨[⟨"abc".toList, []⟩], "abc".toList, ⟨0, 0, []⟩, 3, 3⟩ "italic" rfl).trans (by decide)

/-- No occurrence means `splitFirst` finds nothing. -/
theorem splitFirst_none_of_not_occur : ∀ (s pat : Str), hasOccur s pat = false →
    splitFirst s pat = none
  | [], pat, h => by
    rw [hasOccur] at h
    rw [splitFirst, if_neg]
    simp [h]
  | c :: cs, pat, h => by
    rw [hasOccur, Bool.or_eq_false_iff] at h
    rw [splitFirst, if_neg (by simp [h.1]), splitFirst_none_of_not_occur cs pat h.2]

/-- `.replace` is the identity when the pattern does not occur. -/
theorem replaceFirst_eq_of_not_occur (s pat : Str) (h : hasOccur s pat = false) :
    replaceFirst s pat = s := by
  rw [replaceFirst, splitFirst_none_of_not_occur s pat h]

/-- The empty pattern occurs everywhere. -/
theorem hasOccur_of_isEmpty : ∀ (s pat : Str), pat = [] → hasOccur s pat = true
  | [], _, h => by rw [hasOccur, h]; rfl
  | c :: cs, _, h => by
    rw [hasOccur, h]
    simp [List.isPrefixOf]

/-- An occurrence persists when extending on the right. -/
theorem occur_append_left : ∀ (a b pat : Str), hasOccur a pat = true →
    hasOccur (a ++ b) pat = true
  | [], b, pat, h => by
    rw [hasOccur] at h
    apply hasOccur_of_isEmpty
    simpa [List.isEmpty_iff] using h
  | c :: cs, b, pat, h => by
    rw [hasOccur, Bool.or_eq_true] at h
    rw [List.cons_append, hasOccur, Bool.or_eq_true]
    rcases h with h | h
    · left
      rw [List.isPrefixOf_iff_prefix] at h ⊢
      exact h.trans (List.prefix_append (c :: cs) b)
    · right
      exact occur_append_left cs b pat h

/-- An occurrence persists when extending on the left. -/
theorem occur_append_right : ∀ (a b pat : Str), hasOccur b pat = true →
    hasOccur (a ++ b) pat = true
  | [], _, _, h => h
  | c :: cs, b, pat, h => by
    rw [List.cons_append, hasOccur, Bool.or_eq_true]
    exact Or.inr (occur_append_right cs b pat h)

/-- Non-occurrence passes to prefixes. -/
theorem not_occur_take (s pat : Str) (n : Nat) (h : hasOccur s pat = false) :
    hasOccur (s.take n) pat = false := by
  by_contra hc
  rw [Bool.not_eq_false] at hc
  have h2 := occur_append_left (s.take n) (s.drop n) pat hc
  rw [List.take_append_drop, h] at h2
  exact absurd h2 (by simp)

/-- Non-occurrence passes to suffixes. -/
theorem not_occur_drop (s pat : Str) (n : Nat) (h : hasOccur s pat = false) :
    hasOccur (s.drop n) pat = false := by
  by_contra hc
  rw [Bool.not_eq_false] at hc
  have h2 := occur_append_right (s.take n) (s.drop n) pat hc
  rw [List.take_append_drop, h] at h2
  exact absurd h2 (by simp)

/-- Clamping a non-negative index. -/
theorem jsClamp_natCast (len a : Nat) : jsClamp len (a : Int) = min a len := by
  rw [jsClamp, if_neg (by omega)]
  simp

/-- `slice` with in-range natural indices. -/
theorem jsSlice_nat (s : Str) (a b : Nat) (ha : a ≤ s.length) (hb : b ≤ s.length) :
    jsSlice s (a : Int) (b : Int) = (s.take b).drop a := by
  rw [jsSlice, jsClamp_natCast, jsClamp_natCast, Nat.min_eq_left ha, Nat.min_eq_left hb]

/-- One-argument `slice` with an in-range natural index. -/
theorem jsSliceFrom_nat (s : Str) (a : Nat) (ha : a ≤ s.length) :
    jsSliceFrom s (a : Int) = s.drop a := by
  rw [jsSliceFrom, jsSlice_nat s a s.length ha (le_refl _), List.take_length]

/-- Array `slice` with in-range natural indices. -/
theorem jsSliceToks_nat (ts : List Tok) (a b : Nat) (ha : a ≤ ts.length) (hb : b ≤ ts.length) :
    jsSliceToks ts (a : Int) (b : Int) = (ts.take b).drop a := by
  rw [jsSliceToks, jsClamp_natCast, jsClamp_natCast, Nat.min_eq_left ha, Nat.min_eq_left hb]

/-- Text length distributes over append. -/
theorem textLen_append (xs ys : List Tok) :
    textLen (xs ++ ys) = textLen xs + textLen ys := by
  rw [textLen, textLen, textLen, List.map_append, List.sum_append]

/-- Text length of a cons. -/
theorem textLen_cons (t : Tok) (ts : List Tok) :
    textLen (t :: ts) = t.text.length + textLen ts := by
  rw [textLen, textLen, List.map_cons, List.sum_cons]

/-- The strict walk stops at the head when the offset is inside it. -/
theorem walkLt_cons_lt (t : Tok) (ts : List Tok) (k : Nat) (h : k < t.text.length) :
    walkLt (t :: ts) (k : Int) = ((k : Int), some (0, t)) := by
  rw [walkLt, if_pos (by exact_mod_cast h)]

/-- The `≤` walk stops at the head when the offset is within it. -/
theorem walkLe_cons_le (t : Tok) (ts : List Tok) (k : Nat) (h : k ≤ t.text.length) :
    walkLe (t :: ts) (k : Int) = ((k : Int), some (0, t)) := by
  rw [walkLe, if_pos (by exact_mod_cast h)]

/-- The strict walk passes over a leading block of runs. -/
theorem walkLt_append : ∀ (A ts : List Tok) (k : Nat),
    walkLt (A ++ ts) ((textLen A + k : Nat) : Int)
      = ((walkLt ts (k : Int)).1, (walkLt ts (k : Int)).2.map (fun p => (p.1 + A.length, p.2)))
  | [], ts, k => by
    rw [textLen]
    simp only [List.map_nil, List.sum_nil, Nat.zero_add, List.nil_append, List.length_nil]
    have hfun : (fun (p : Nat × Tok) => (p.1 + 0, p.2)) = id := by
      funext p
      simp
    rw [hfun, Option.map_id]
    rfl
  | t :: A, ts, k => by
    rw [List.cons_append, walkLt, if_neg (by rw [textLen_cons]; push_cast; omega)]
    have harg : ((textLen (t :: A) + k : Nat) : Int) - t.text.length
        = ((textLen A + k : Nat) : Int) := by
      rw [textLen_cons]
      push_cast
      omega
    rw [harg, walkLt_append A ts k]
    rcases hw : (walkLt ts (k : Int)).2 with _ | p
    · simp [hw]
    · simp [hw, Nat.add_assoc]

/-- The `≤` walk passes over a leading block provided the remaining
offset is positive. -/
theorem walkLe_append : ∀ (A ts : List Tok) (k : Nat), 1 ≤ k →
    walkLe (A ++ ts) ((textLen A + k : Nat) : Int)
      = ((walkLe ts (k : Int)).1, (walkLe ts (k : Int)).2.map (fun p => (p.1 + A.length, p.2)))
  | [], ts, k, _ => by
    rw [textLen]
    simp only [List.map_nil, List.sum_nil, Nat.zero_add, List.nil_append, List.length_nil]
    have hfun : (fun (p : Nat × Tok) => (p.1 + 0, p.2)) = id := by
      funext p
      simp
    rw [hfun, Option.map_id]
    rfl
  | t :: A, ts, k, hk => by
    rw [List.cons_append, walkLe, if_neg (by rw [textLen_cons]; push_cast; omega)]
    have harg : ((textLen (t :: A) + k : Nat) : Int) - t.text.length
        = ((textLen A + k : Nat) : Int) := by
      rw [textLen_cons]
      push_cast
      omega
    rw [harg, walkLe_append A ts k hk]
    rcases hw : (walkLe ts (k : Int)).2 with _ | p
    · simp [hw]
    · simp [hw, Nat.add_assoc]

/-- Position lookup splits at an append. -/
theorem posAnn_append (xs ys : List Tok) (p : Nat) :
    posAnn (xs ++ ys) p
      = if p < textLen xs then posAnn xs p else posAnn ys (p - textLen xs) := by
  induction xs generalizing p with
  | nil => simp [textLen, posAnn]
  | cons t xs ih =>
    rw [List.cons_append, posAnn, posAnn, textLen_cons]
    by_cases h : p < t.text.length
    · rw [if_pos h, if_pos (by omega), if_pos h]
    · rw [if_neg h, if_neg h, ih (p - t.text.length)]
      by_cases h2 : p < t.text.length + textLen xs
      · rw [if_pos (by omega), if_pos (by omega)]
      · rw [if_neg (by omega), if_neg (by omega)]
        congr 1
        omega

/-- Dropping empty-text runs does not change position lookup. -/
theorem posAnn_filter (ts : List Tok) (p : Nat) :
    posAnn (ts.filter (fun t => 0 < t.text.length)) p = posAnn ts p := by
  induction ts generalizing p with
  | nil => rfl
  | cons t ts ih =>
    rw [List.filter_cons]
    by_cases h : 0 < t.text.length
    · rw [if_pos (by simpa using h), posAnn, posAnn, ih]
    · have hlen : t.text.length = 0 := by omega
      rw [if_neg (by simpa using h), posAnn, if_neg (by omega), ih, hlen, Nat.sub_zero]

/-- Dropping empty-text runs does not change the text length. -/
theorem textLen_filter (ts : List Tok) :
    textLen (ts.filter (fun t => 0 < t.text.length)) = textLen ts := by
  induction ts with
  | nil => rfl
  | cons t ts ih =>
    rw [List.filter_cons]
    by_cases h : 0 < t.text.length
    · rw [if_pos (by simpa using h), textLen_cons, textLen_cons, ih]
    · have hlen : t.text.length = 0 := by omega
      rw [if_neg (by simpa using h), textLen_cons, ih, hlen, Nat.zero_add]

/-- Reading back the key just set. -/
theorem jsGet_setKey_self : ∀ (a : Annotations) (k : String) (v : AVal),
    jsGet (setKey a k v) k = v
  | [], k, v => by simp [setKey, jsGet]
  | (k1, v1) :: rest, k, v => by
    rw [setKey]
    by_cases h1 : k1 = k
    · rw [if_pos (by simp [h1]), List.map_cons, if_pos h1, jsGet, if_pos rfl]
    · have hany : (((k1, v1) :: rest).any (fun kv => kv.1 == k))
          = rest.any (fun kv => kv.1 == k) := by
        simp [List.any_cons, h1]
      rw [hany]
      by_cases h2 : rest.any (fun kv => kv.1 == k)
      · rw [if_pos h2, List.map_cons, if_neg h1, jsGet, if_neg h1]
        have hrec := jsGet_setKey_self rest k v
        rw [setKey, if_pos h2] at hrec
        exact hrec
      · rw [if_neg h2, List.cons_append, jsGet, if_neg h1]
        have hrec := jsGet_setKey_self rest k v
        rw [setKey, if_neg h2] at hrec
        exact hrec

/-- Re-annotating runs preserves the text length. -/
theorem textLen_map_ann (g : Annotations → Annotations) : ∀ (M : List Tok),
    textLen (M.map (fun t => (⟨t.text, g t.annotations⟩ : Tok))) = textLen M
  | [] => rfl
  | t :: M => by
    rw [List.map_cons, textLen_cons, textLen_cons, textLen_map_ann g M]

/-- Position lookup through a re-annotating map. -/
theorem posAnn_map_ann (g : Annotations → Annotations) : ∀ (M : List Tok) (p : Nat),
    p < textLen M →
    posAnn (M.map (fun t => (⟨t.text, g t.annotations⟩ : Tok))) p = g (posAnn M p)
  | [], p, hp => by
    rw [textLen] at hp
    simp at hp
  | t :: M, p, hp => by
    rw [List.map_cons, posAnn, posAnn]
    by_cases h : p < t.text.length
    · rw [if_pos h, if_pos h]
    · rw [if_neg h, if_neg h]
      exact posAnn_map_ann g M (p - t.text.length) (by rw [textLen_cons] at hp; omega)

/-- Position lookup inside the head run. -/
theorem posAnn_cons_lt (t : Tok) (ts : List Tok) (p : Nat) (h : p < t.text.length) :
    posAnn (t :: ts) p = t.annotations := by
  rw [posAnn, if_pos h]

/-- Position lookup past the head run. -/
theorem posAnn_cons_ge (t : Tok) (ts : List Tok) (p : Nat) (h : t.text.length ≤ p) :
    posAnn (t :: ts) p = posAnn ts (p - t.text.length) := by
  rw [posAnn, if_neg (by omega)]

/-- Position lookup inside the left part of an append. -/
theorem posAnn_append_lt (xs ys : List Tok) (p : Nat) (h : p < textLen xs) :
    posAnn (xs ++ ys) p = posAnn xs p := by
  rw [posAnn_append, if_pos h]

/-- Position lookup past the left part of an append. -/
theorem posAnn_append_ge (xs ys : List Tok) (p : Nat) (h : textLen xs ≤ p) :
    posAnn (xs ++ ys) p = posAnn ys (p - textLen xs) := by
  rw [posAnn_append, if_neg (by omega)]

/-- Evaluation of `splitTokens` on a selection spanning at least two runs:
the start run is cut at `sOff`, the end run at `eOff`, covered pieces get
the uniform-toggle value, and the uncovered prefix/suffix re-assert their
original value. -/
theorem c5_split_eval
    (A M B : List Tok) (stok etok : Tok) (S : String) (sOff eOff : Nat)
    (hs : sOff < stok.text.length) (he1 : 1 ≤ eOff) (he2 : eOff ≤ etok.text.length)
    (hu1 : hasOccur stok.text "undefined".toList = false)
    (hu2 : hasOccur etok.text "undefined".toList = false) :
    splitTokens (A ++ stok :: (M ++ etok :: B)) ((textLen A + sOff : Nat) : Int)
        ((textLen A + stok.text.length + textLen M + eOff : Nat) : Int)
        [(S, AVal.b true)] none
      = some ⟨(c5Pieces A M B stok etok S sOff eOff).filter (fun t => 0 < t.text.length),
              tsFlat (c5Pieces A M B stok etok S sOff eOff)⟩ := by
  have hwS : walkLt (A ++ stok :: (M ++ etok :: B)) ((textLen A + sOff : Nat) : Int)
      = ((sOff : Int), some (A.length, stok)) := by
    rw [walkLt_append A (stok :: (M ++ etok :: B)) sOff,
      walkLt_cons_lt stok (M ++ etok :: B) sOff hs]
    simp
  have heq : A ++ stok :: (M ++ etok :: B) = (A ++ stok :: M) ++ (etok :: B) := by
    simp
  have hfin : textLen A + stok.text.length + textLen M + eOff
      = textLen (A ++ stok :: M) + eOff := by
    rw [textLen_append, textLen_cons]
    omega
  have hwE : walkLe (A ++ stok :: (M ++ etok :: B))
      ((textLen A + stok.text.length + textLen M + eOff : Nat) : Int)
      = ((eOff : Int), some (A.length + (M.length + 1), etok)) := by
    rw [heq]
    rw [show ((textLen A + stok.text.length + textLen M + eOff : Nat) : Int)
        = ((textLen (A ++ stok :: M) + eOff : Nat) : Int) by rw [hfin]]
    rw [walkLe_append (A ++ stok :: M) (etok :: B) eOff he1,
      walkLe_cons_le etok B eOff he2]
    simp
  rw [splitTokens, hwS, hwE]
  dsimp only
  rw [if_neg (by omega)]
  have hkey : (match annKeys [(S, AVal.b true)] with
      | [] => "undefined"
      | k :: _ => k) = S := rfl
  rw [hkey]
  have hlentoks : (A ++ stok :: (M ++ etok :: B)).length = A.length + M.length + B.length + 2 := by
    simp
    omega
  have hcast : ((A.length + (M.length + 1) : Nat) : Int) + 1
      = ((A.length + M.length + 2 : Nat) : Int) := by
    push_cast
    omega
  have hview : A ++ stok :: (M ++ etok :: B) = (A ++ stok :: (M ++ [etok])) ++ B := by
    simp
  have hselected : jsSliceToks (A ++ stok :: (M ++ etok :: B)) (A.length : Int)
      (((A.length + (M.length + 1) : Nat) : Int) + 1) = stok :: (M ++ [etok]) := by
    rw [hcast, jsSliceToks_nat _ _ _ (by rw [hlentoks]; omega) (by rw [hlentoks]; omega),
      hview, List.take_left' (by simp; omega), List.drop_left]
  have hcast2 : ((A.length : Nat) : Int) + 1 = ((A.length + 1 : Nat) : Int) := by
    push_cast
    omega
  have hview2 : A ++ stok :: (M ++ etok :: B) = ((A ++ [stok]) ++ M) ++ (etok :: B) := by
    simp
  have hmids : jsSliceToks (A ++ stok :: (M ++ etok :: B)) (((A.length : Nat) : Int) + 1)
      ((A.length + (M.length + 1) : Nat) : Int) = M := by
    rw [hcast2, jsSliceToks_nat _ _ _ (by rw [hlentoks]; omega) (by rw [hlentoks]; omega),
      hview2, List.take_left' (by simp; try omega), List.drop_left' (by simp)]
  rw [hselected, hmids]
  rw [List.take_left' rfl]
  have hdrop : (A ++ stok :: (M ++ etok :: B)).drop (A.length + (M.length + 1) + 1) = B := by
    rw [hview, List.drop_left' (by simp; omega)]
  rw [hdrop]
  have hslice1 : jsSlice stok.text 0 ((sOff : Nat) : Int) = stok.text.take sOff := by
    rw [show (0 : Int) = ((0 : Nat) : Int) from rfl,
      jsSlice_nat _ _ _ (by omega) (by omega), List.drop_zero]
  have hslice2 : replaceFirst (jsSlice stok.text ((sOff : Nat) : Int)
      ((stok.text.length : Nat) : Int)) (jsStr none) = stok.text.drop sOff := by
    rw [jsSlice_nat _ _ _ (by omega) (by omega), List.take_length]
    exact replaceFirst_eq_of_not_occur _ _ (not_occur_drop _ _ _ hu1)
  have hslice3 : jsSlice etok.text 0 ((eOff : Nat) : Int) = etok.text.take eOff := by
    rw [show (0 : Int) = ((0 : Nat) : Int) from rfl,
      jsSlice_nat _ _ _ (by omega) (by omega), List.drop_zero]
  have hslice4 : replaceFirst (jsSlice etok.text ((eOff : Nat) : Int)
      ((etok.text.length : Nat) : Int)) (jsStr none) = etok.text.drop eOff := by
    rw [jsSlice_nat _ _ _ (by omega) (by omega), List.take_length]
    exact replaceFirst_eq_of_not_occur _ _ (not_occur_drop _ _ _ hu2)
  rw [hslice1, hslice2, hslice3, hslice4]
  rw [c5Pieces, c5AllHave]

/-- C5: for `splitTokens` with the single-key delta `{S: true}` over a
selection spanning at least two runs (start inside `stok`, end inside
`etok`), if every covered run has `S === true` the whole covered span gets
`S` set to `false`, otherwise `S` set to `true`; every position outside the
covered span keeps its original value of `S`; the flat-text length is
preserved. -/
theorem c5_cross_run_uniform_toggle
    (A M B : List Tok) (stok etok : Tok) (S : String) (sOff eOff : Nat)
    (hs : sOff < stok.text.length) (he1 : 1 ≤ eOff) (he2 : eOff ≤ etok.text.length)
    (hu1 : hasOccur stok.text "undefined".toList = false)
    (hu2 : hasOccur etok.text "undefined".toList = false) :
    ∃ r : SplitRes,
      splitTokens (A ++ stok :: (M ++ etok :: B))
          ((textLen A + sOff : Nat) : Int)
          ((textLen A + stok.text.length + textLen M + eOff : Nat) : Int)
          [(S, AVal.b true)] none = some r ∧
      textLen r.result = textLen (A ++ stok :: (M ++ etok :: B)) ∧
      (∀ p, textLen A + sOff ≤ p →
        p < textLen A + stok.text.length + textLen M + eOff →
        jsGet (posAnn r.result p) S = .b (!c5AllHave M stok etok S)) ∧
      (∀ p, p < textLen (A ++ stok :: (M ++ etok :: B)) →
        (p < textLen A + sOff ∨ textLen A + stok.text.length + textLen M + eOff ≤ p) →
        jsGet (posAnn r.result p) S = jsGet (posAnn (A ++ stok :: (M ++ etok :: B)) p) S) := by
  have hLassoc : c5Pieces A M B stok etok S sOff eOff
      = A ++ ((⟨stok.text.take sOff, setKey stok.annotations S (jsGet stok.annotations S)⟩ : Tok)
        :: (⟨stok.text.drop sOff,
              setKey stok.annotations S (.b (!c5AllHave M stok etok S))⟩ : Tok)
        :: (M.map (fun t => (⟨t.text,
              setKey t.annotations S (.b (!c5AllHave M stok etok S))⟩ : Tok))
          ++ ((⟨etok.text.take eOff,
                setKey etok.annotations S (.b (!c5AllHave M stok etok S))⟩ : Tok)
            :: (⟨etok.text.drop eOff,
                  setKey etok.annotations S (jsGet etok.annotations S)⟩ : Tok) :: B))) := by
    rw [c5Pieces]
    simp
  have htlM : textLen (M.map (fun t => (⟨t.text,
      setKey t.annotations S (.b (!c5AllHave M stok etok S))⟩ : Tok))) = textLen M :=
    textLen_map_ann (fun a => setKey a S (.b (!c5AllHave M stok etok S))) M
  refine ⟨_, c5_split_eval A M B stok etok S sOff eOff hs he1 he2 hu1 hu2, ?_, ?_, ?_⟩
  · rw [textLen_filter, hLassoc]
    simp only [textLen_append, textLen_cons, htlM]
    simp only [List.length_take, List.length_drop]
    rw [Nat.min_eq_left (Nat.le_of_lt hs), Nat.min_eq_left he2]
    omega
  · intro p hp1 hp2
    rw [posAnn_filter, hLassoc, posAnn_append, if_neg (by omega)]
    rw [posAnn, if_neg (by simp only [List.length_take]; omega)]
    rw [posAnn]
    by_cases hq : p - textLen A - (stok.text.take sOff).length < (stok.text.drop sOff).length
    · rw [if_pos hq, jsGet_setKey_self]
    · rw [if_neg hq, posAnn_append]
      simp only [List.length_take, List.length_drop] at hq ⊢
      rw [htlM]
      by_cases hq2 : p - textLen A - min sOff stok.text.length - (stok.text.length - sOff)
          < textLen M
      · rw [if_pos hq2,
          posAnn_map_ann (fun a => setKey a S (.b (!c5AllHave M stok etok S))) M _ hq2,
          jsGet_setKey_self]
      · rw [if_neg hq2, posAnn, if_pos (by simp only [List.length_take]; omega),
          jsGet_setKey_self]
  · intro p hptot hpout
    rw [posAnn_filter, hLassoc]
    have htot2 : p < textLen A + stok.text.length + textLen M + etok.text.length + textLen B := by
      rw [textLen_append, textLen_cons, textLen_append, textLen_cons] at hptot
      omega
    rcases hpout with hlt | hge
    · by_cases hpA : p < textLen A
      · rw [posAnn_append_lt _ _ _ hpA,
          posAnn_append_lt A (stok :: (M ++ etok :: B)) p hpA]
      · have hpA2 : textLen A ≤ p := by omega
        rw [posAnn_append_ge _ _ _ hpA2,
          posAnn_append_ge A (stok :: (M ++ etok :: B)) p hpA2,
          posAnn_cons_lt _ _ _ (by simp only [List.length_take]; omega),
          posAnn_cons_lt _ _ _ (by omega), jsGet_setKey_self]
    · have hpA2 : textLen A ≤ p := by omega
      rw [posAnn_append_ge _ _ _ hpA2,
        posAnn_append_ge A (stok :: (M ++ etok :: B)) p hpA2,
        posAnn_cons_ge _ _ _ (by simp only [List.length_take]; omega),
        posAnn_cons_ge stok (M ++ etok :: B) _ (by omega),
        posAnn_cons_ge _ _ _ (by simp only [List.length_take, List.length_drop]; omega),
        posAnn_append_ge _ _ _ (by rw [htlM]; simp only [List.length_take, List.length_drop]; omega),
        posAnn_append_ge M (etok :: B) _ (by omega),
        posAnn_cons_ge _ _ _ (by rw [htlM]; simp only [List.length_take, List.length_drop]; omega)]
      rw [htlM]
      by_cases hq4 : p - textLen A - (stok.text.take sOff).length - (stok.text.drop sOff).length
          - textLen M - (etok.text.take eOff).length < (etok.text.drop eOff).length
      · rw [posAnn_cons_lt _ _ _ hq4, jsGet_setKey_self,
          posAnn_cons_lt etok B _
            (by simp only [List.length_take, List.length_drop] at hq4 ⊢; omega)]
      · rw [posAnn_cons_ge _ _ _
            (by dsimp only; simp only [List.length_take, List.length_drop] at hq4 ⊢; omega),
          posAnn_cons_ge etok B _
            (by simp only [List.length_take, List.length_drop] at hq4 ⊢; omega)]
        dsimp only
        simp only [List.length_take, List.length_drop] at hq4 ⊢
        rw [Nat.min_eq_left (Nat.le_of_lt hs), Nat.min_eq_left he2] at hq4 ⊢
        have hidx : p - textLen A - sOff - (stok.text.length - sOff) - textLen M - eOff
            - (etok.text.length - eOff)
            = p - textLen A - stok.text.length - textLen M - etok.text.length := by
          omega
        rw [hidx]

/-- Witness for C5: a mixed-state two-run selection `["a"(bold), "bb"]`
over `[0,2)` normalizes the covered span to bold on, position 2 keeping its
original (absent) bold value. -/
theorem c5_cross_run_uniform_toggle_witness :
    ∃ r : SplitRes,
      splitTokens [⟨"a".toList, [("bold", AVal.b true)]⟩, ⟨"bb".toList, []⟩]
          (0 : Int) (2 : Int) [("bold", AVal.b true)] none = some r ∧
      textLen r.result
        = textLen [⟨"a".toList, [("bold", AVal.b true)]⟩, ⟨"bb".toList, []⟩] ∧
      (∀ p, 0 ≤ p → p < 2 →
        jsGet (posAnn r.result p) "bold"
          = .b (!c5AllHave [] ⟨"a".toList, [("bold", AVal.b true)]⟩ ⟨"bb".toList, []⟩ "bold")) ∧
      (∀ p, p < textLen [⟨"a".toList, [("bold", AVal.b true)]⟩, ⟨"bb".toList, []⟩] →
        (p < 0 ∨ 2 ≤ p) →
        jsGet (posAnn r.result p) "bold"
          = jsGet (posAnn [⟨"a".toList, [("bold", AVal.b true)]⟩, ⟨"bb".toList, []⟩] p) "bold") :=
  c5_cross_run_uniform_toggle [] [] [] ⟨"a".toList, [("bold", AVal.b true)]⟩
    ⟨"bb".toList, []⟩ "bold" 0 1 (by decide) (by decide) (by decide) (by decide) (by decide)

/-- Evaluation of `splitTokens` on a single run over an interior selection:
the same-token branch cuts the run into the three expected pieces. -/
theorem c4_split_single (t : Str) (ann : Annotations) (S : String) (s e : Nat)
    (hse : s < e) (he : e ≤ t.length) (hu : hasOccur t "undefined".toList = false) :
    splitTokens [⟨t, ann⟩] (s : Int) (e : Int) [(S, AVal.b true)] none
      = some ⟨([(⟨t.take s, ann⟩ : Tok),
                ⟨(t.take e).drop s, concileAnnotations ann [(S, AVal.b true)]⟩,
                ⟨t.drop e, ann⟩]).filter (fun tok => 0 < tok.text.length),
              tsFlat [(⟨t.take s, ann⟩ : Tok),
                ⟨(t.take e).drop s, concileAnnotations ann [(S, AVal.b true)]⟩,
                ⟨t.drop e, ann⟩]⟩ := by
  have hwS : walkLt [⟨t, ann⟩] (s : Int) = ((s : Int), some (0, ⟨t, ann⟩)) :=
    walkLt_cons_lt _ _ _ (by dsimp only; omega)
  have hwE : walkLe [⟨t, ann⟩] (e : Int) = ((e : Int), some (0, ⟨t, ann⟩)) :=
    walkLe_cons_le _ _ _ (by dsimp only; omega)
  rw [splitTokens, hwS, hwE]
  dsimp only
  rw [if_pos rfl]
  have hs1 : jsSlice t 0 ((s : Nat) : Int) = t.take s := by
    rw [show (0 : Int) = ((0 : Nat) : Int) from rfl,
      jsSlice_nat _ _ _ (by omega) (by omega), List.drop_zero]
  have hs2 : replaceFirst (jsSlice t ((s : Nat) : Int) ((e : Nat) : Int)) (jsStr none)
      = (t.take e).drop s := by
    rw [jsSlice_nat _ _ _ (by omega) (by omega)]
    exact replaceFirst_eq_of_not_occur _ _ (not_occur_drop _ _ _ (not_occur_take _ _ _ hu))
  have hs3 : replaceFirst (jsSlice t ((e : Nat) : Int) ((t.length : Nat) : Int)) (jsStr none)
      = t.drop e := by
    rw [jsSlice_nat _ _ _ (by omega) (by omega), List.take_length]
    exact replaceFirst_eq_of_not_occur _ _ (not_occur_drop _ _ _ hu)
  rw [hs1, hs2, hs3]
  rfl

/-- Evaluation of `splitTokens` when the selection exactly covers the run
following a prefix block `P` of total text length `s`: the cut pieces beside
the restyled middle are empty. -/
theorem c4_split_mid (P Q : List Tok) (m : Tok) (S : String) (s e : Nat)
    (hP : textLen P = s) (hm : m.text.length = e - s) (hse : s < e)
    (hu : hasOccur m.text "undefined".toList = false) :
    splitTokens (P ++ m :: Q) (s : Int) (e : Int) [(S, AVal.b true)] none
      = some ⟨(P ++ [(⟨[], m.annotations⟩ : Tok),
                ⟨m.text, concileAnnotations m.annotations [(S, AVal.b true)]⟩,
                ⟨[], m.annotations⟩] ++ Q).filter (fun tok => 0 < tok.text.length),
              tsFlat (P ++ [(⟨[], m.annotations⟩ : Tok),
                ⟨m.text, concileAnnotations m.annotations [(S, AVal.b true)]⟩,
                ⟨[], m.annotations⟩] ++ Q)⟩ := by
  have hwS : walkLt (P ++ m :: Q) (s : Int) = (((0 : Nat) : Int), some (P.length, m)) := by
    have h := walkLt_append P (m :: Q) 0
    rw [walkLt_cons_lt m Q 0 (by omega)] at h
    rw [show (textLen P + 0 : Nat) = s by omega] at h
    simpa using h
  have hwE : walkLe (P ++ m :: Q) (e : Int) = (((e - s : Nat) : Int), some (P.length, m)) := by
    have h := walkLe_append P (m :: Q) (e - s) (by omega)
    rw [walkLe_cons_le m Q (e - s) (by omega)] at h
    rw [show (textLen P + (e - s) : Nat) = e by omega] at h
    simpa using h
  rw [splitTokens, hwS, hwE]
  dsimp only
  rw [if_pos rfl]
  have hs1 : jsSlice m.text 0 (((0 : Nat)) : Int) = ([] : Str) := by
    rw [show (0 : Int) = ((0 : Nat) : Int) from rfl,
      jsSlice_nat _ _ _ (by omega) (by omega)]
    simp
  have hs2 : replaceFirst (jsSlice m.text (((0 : Nat)) : Int) (((e - s : Nat)) : Int))
      (jsStr none) = m.text := by
    rw [jsSlice_nat _ _ _ (by omega) (by omega), List.drop_zero,
      List.take_of_length_le (by omega)]
    exact replaceFirst_eq_of_not_occur _ _ hu
  have hs3 : replaceFirst (jsSlice m.text (((e - s : Nat)) : Int) ((m.text.length : Nat) : Int))
      (jsStr none) = ([] : Str) := by
    rw [jsSlice_nat _ _ _ (by omega) (le_refl _), List.take_length,
      List.drop_of_length_le (by omega)]
    exact replaceFirst_eq_of_not_occur _ _ (by decide)
  rw [hs1, hs2, hs3, List.take_left' rfl,
    show (P ++ m :: Q).drop (P.length + 1) = Q by
      rw [show P ++ m :: Q = (P ++ [m]) ++ Q by simp, List.drop_left' (by simp)]]

/-- A `concatStep` whose merge condition fails appends the incoming run. -/
theorem concatStep_eq_append (acc : List Tok) (t prev : Tok) (hl : acc.getLast? = some prev)
    (h : mergeTest prev t = false) : concatStep acc t = acc ++ [t] := by
  rw [concatStep, hl]
  dsimp only
  rw [show (!(annKeys prev.annotations).isEmpty &&
      (annKeys prev.annotations).all
        (fun k => decide (jsGet prev.annotations k = jsGet t.annotations k))) = mergeTest prev t
      from rfl, h]
  simp

/-- The merge fold leaves a list untouched when no adjacent pair satisfies
the merge condition. -/
theorem foldl_concatStep_no_merge : ∀ (L acc : List Tok) (prev : Tok),
    acc.getLast? = some prev →
    List.Chain' (fun a b => mergeTest a b = false) (prev :: L) →
    List.foldl concatStep acc L = acc ++ L
  | [], acc, prev, _, _ => by simp
  | t :: L, acc, prev, hl, hch => by
    rw [List.chain'_cons] at hch
    rw [List.foldl_cons, concatStep_eq_append acc t prev hl hch.1,
      foldl_concatStep_no_merge L (acc ++ [t]) t (by simp) hch.2]
    simp

/-- `concatTokens` is the identity on a list in which no adjacent pair
satisfies the merge condition. -/
theorem concatTokens_no_merge (L : List Tok)
    (hch : List.Chain' (fun a b => mergeTest a b = false) L) : concatTokens L = L := by
  cases L with
  | nil => rfl
  | cons t L =>
    rw [concatTokens, List.foldl_cons,
      show concatStep [] t = [t] from rfl,
      foldl_concatStep_no_merge L [t] t (by simp) hch]
    rfl

/-- A previous run with an empty mapping never merges. -/
theorem mergeTest_empty_prev (A : Str) (cur : Tok) : mergeTest ⟨A, []⟩ cur = false := by
  simp [mergeTest, annKeys]

/-- A single-key previous run does not merge when the incoming run maps that
key to a different value. -/
theorem mergeTest_single_ne (A : Str) (S : String) (v : AVal) (cur : Tok)
    (h : jsGet cur.annotations S ≠ v) : mergeTest ⟨A, [(S, v)]⟩ cur = false := by
  simp [mergeTest, annKeys, jsGet]
  intro hh
  exact absurd hh.symm h

/-- A `concatStep` whose merge condition holds absorbs the incoming run into
the last accumulated one. -/
theorem concatStep_merge (acc : List Tok) (prev cur : Tok) (hl : acc.getLast? = some prev)
    (h : mergeTest prev cur = true) :
    concatStep acc cur = acc.dropLast ++ [⟨prev.text ++ cur.text, prev.annotations⟩] := by
  rw [concatStep, hl]
  dsimp only
  rw [show (!(annKeys prev.annotations).isEmpty &&
      (annKeys prev.annotations).all
        (fun k => decide (jsGet prev.annotations k = jsGet cur.annotations k))) = mergeTest prev cur
      from rfl, h]
  simp

/-- Two runs with the same single-key mapping satisfy the merge condition. -/
theorem mergeTest_same_single (A B : Str) (S : String) (v : AVal) :
    mergeTest ⟨A, [(S, v)]⟩ ⟨B, [(S, v)]⟩ = true := by
  simp [mergeTest, annKeys, jsGet]

/-- The merge pass collapses two runs with the same single-key mapping. -/
theorem concat_merge2 (A B : Str) (S : String) (v : AVal) :
    concatTokens [⟨A, [(S, v)]⟩, ⟨B, [(S, v)]⟩] = [⟨A ++ B, [(S, v)]⟩] := by
  rw [concatTokens, List.foldl_cons, show concatStep [] ⟨A, [(S, v)]⟩ = [⟨A, [(S, v)]⟩] from rfl,
    List.foldl_cons,
    concatStep_merge [⟨A, [(S, v)]⟩] ⟨A, [(S, v)]⟩ ⟨B, [(S, v)]⟩ (by simp)
      (mergeTest_same_single A B S v)]
  rfl

/-- The merge pass collapses three runs with the same single-key mapping. -/
theorem concat_merge3 (A B C : Str) (S : String) (v : AVal) :
    concatTokens [⟨A, [(S, v)]⟩, ⟨B, [(S, v)]⟩, ⟨C, [(S, v)]⟩]
      = [⟨(A ++ B) ++ C, [(S, v)]⟩] := by
  rw [concatTokens, List.foldl_cons, show concatStep [] ⟨A, [(S, v)]⟩ = [⟨A, [(S, v)]⟩] from rfl,
    List.foldl_cons,
    concatStep_merge [⟨A, [(S, v)]⟩] ⟨A, [(S, v)]⟩ ⟨B, [(S, v)]⟩ (by simp)
      (mergeTest_same_single A B S v)]
  rw [show ([⟨A, [(S, v)]⟩] : List Tok).dropLast ++ [⟨A ++ B, [(S, v)]⟩]
      = [⟨A ++ B, [(S, v)]⟩] from rfl, List.foldl_cons,
    concatStep_merge [⟨A ++ B, [(S, v)]⟩] ⟨A ++ B, [(S, v)]⟩ ⟨C, [(S, v)]⟩ (by simp)
      (mergeTest_same_single (A ++ B) C S v)]
  rfl

/-- When every run's mapping is point-wise falsy, every position reads falsy
under every key. -/
theorem posAnn_truthy_false : ∀ (L : List Tok),
    (∀ tok ∈ L, ∀ k, jsTruthy (jsGet tok.annotations k) = false) →
    ∀ p k, jsTruthy (jsGet (posAnn L p) k) = false
  | [], _, p, k => by rw [posAnn]; rfl
  | t :: ts, hall, p, k => by
    rw [posAnn]
    by_cases hp : p < t.text.length
    · rw [if_pos hp]; exact hall t (by simp) k
    · rw [if_neg hp]
      exact posAnn_truthy_false ts (fun tok htok => hall tok (by simp [htok])) _ k

/-- A single-key mapping holding `.b false` is falsy under every key. -/
theorem truthy_bfalse (S k : String) : jsTruthy (jsGet [(S, AVal.b false)] k) = false := by
  rw [jsGet]
  by_cases h : S = k
  · rw [if_pos h]; rfl
  · rw [if_neg h]; rfl

/-- Reconciling `{S: true}` into an empty mapping sets `S` to `true` (the
absent key negates from `undefined`). -/
theorem concile_empty_true (S : String) :
    concileAnnotations [] [(S, AVal.b true)] = [(S, AVal.b true)] := by
  simp [concileAnnotations, jsTruthy, jsGet, setKey]

/-- Reconciling `{S: true}` into `{S: true}` negates the key to `false`. -/
theorem concile_true_true (S : String) :
    concileAnnotations [(S, AVal.b true)] [(S, AVal.b true)] = [(S, AVal.b false)] := by
  simp [concileAnnotations, jsTruthy, jsGet, setKey]

/-- Reconciling `{S: true}` into `{S: false}` negates the key to `true`. -/
theorem concile_false_true (S : String) :
    concileAnnotations [(S, AVal.b false)] [(S, AVal.b true)] = [(S, AVal.b true)] := by
  simp [concileAnnotations, jsTruthy, jsGet, setKey]

/-- C4 (amended): on a single run whose mapping is empty or exactly the
toggled style set to `true`, toggling a style twice over the same in-range
selection succeeds, preserves the flat text after each application, and
restores the effective (truthiness) annotation state at every position; the
run text must not contain the literal substring "undefined" (the
no-stripLiteral `.replace(undefined, \"\")` quirk is outside this claim). -/
theorem c4_double_toggle_restores
    (t : Str) (S : String) (ann : Annotations) (s e : Nat)
    (hA : ann = [] ∨ ann = [(S, AVal.b true)])
    (hse : s < e) (he : e ≤ t.length)
    (hu : hasOccur t "undefined".toList = false) :
    ∃ r1 r2 : List Tok,
      toggleStyleOp S [⟨t, ann⟩] s e = some r1 ∧
      toggleStyleOp S r1 s e = some r2 ∧
      tsFlat r1 = t ∧ tsFlat r2 = t ∧
      ∀ p k, jsTruthy (jsGet (posAnn r2 p) k)
        = jsTruthy (jsGet (posAnn [⟨t, ann⟩] p) k) := by
  have htlen : 0 < t.length := by omega
  have hAB : t.take s ++ (t.take e).drop s = t.take e := by
    conv_lhs => rw [show t.take s = (t.take e).take s by
      rw [List.take_take, Nat.min_eq_left (le_of_lt hse)]]
    exact List.take_append_drop _ _
  have hABC : (t.take s ++ (t.take e).drop s) ++ t.drop e = t := by
    rw [hAB, List.take_append_drop]
  have huB : hasOccur ((t.take e).drop s) "undefined".toList = false :=
    not_occur_drop _ _ _ (not_occur_take _ _ _ hu)
  have huBz : hasOccur (t.take e) "undefined".toList = false :=
    not_occur_take _ _ _ hu
  rcases hA with rfl | rfl
  · -- unstyled run
    have hsplit1 := c4_split_single t [] S s e hse he hu
    rw [concile_empty_true] at hsplit1
    rcases Nat.eq_zero_or_pos s with rfl | hs0
    · rw [List.take_zero, List.drop_zero] at hsplit1 hAB hABC
      rcases eq_or_lt_of_le he with hel | hel
      · -- s = 0, e = t.length
        have hC0 : t.drop e = [] := List.drop_eq_nil_of_le (by omega)
        rw [hC0] at hsplit1 hABC
        have hf1 : ([(⟨[], ([] : Annotations)⟩ : Tok),
            ⟨t.take e, [(S, AVal.b true)]⟩,
            ⟨[], ([] : Annotations)⟩]).filter (fun tok => 0 < tok.text.length)
            = [⟨t.take e, [(S, AVal.b true)]⟩] := by
          simp [List.filter_cons, hse, htlen]
        have hr1 : toggleStyleOp S [⟨t, []⟩] 0 e
            = some [⟨t.take e, [(S, AVal.b true)]⟩] := by
          rw [toggleStyleOp, hsplit1, Option.map_some']
          dsimp only
          rw [hf1, concatTokens_no_merge _ (by simp)]
        have hsplit2 := c4_split_mid [] [] ⟨t.take e, [(S, AVal.b true)]⟩ S 0 e
            (by simp [textLen])
            (by dsimp only; rw [List.length_take]; omega)
            hse huBz
        rw [concile_true_true] at hsplit2
        simp only [List.cons_append, List.nil_append, List.append_nil] at hsplit2
        have hf2 : ([(⟨[], [(S, AVal.b true)]⟩ : Tok),
            ⟨t.take e, [(S, AVal.b false)]⟩,
            ⟨[], [(S, AVal.b true)]⟩]).filter (fun tok => 0 < tok.text.length)
            = [⟨t.take e, [(S, AVal.b false)]⟩] := by
          simp [List.filter_cons, hse, htlen]
        have hr2 : toggleStyleOp S [⟨t.take e, [(S, AVal.b true)]⟩] 0 e
            = some [⟨t.take e, [(S, AVal.b false)]⟩] := by
          rw [toggleStyleOp, hsplit2, Option.map_some']
          dsimp only
          rw [hf2, concatTokens_no_merge _ (by simp)]
        refine ⟨_, _, hr1, hr2, ?_, ?_, ?_⟩
        · simp only [tsFlat, List.foldl_cons, List.foldl_nil, List.nil_append]
          exact List.take_of_length_le (by omega)
        · simp only [tsFlat, List.foldl_cons, List.foldl_nil, List.nil_append]
          exact List.take_of_length_le (by omega)
        · intro p k
          rw [posAnn_truthy_false _ ?hall p k, posAnn_truthy_false _ ?hall2 p k]
          case hall =>
            intro tok htok
            simp only [List.mem_cons, List.not_mem_nil, or_false] at htok
            rcases htok with rfl
            intro k2; exact truthy_bfalse S k2
          case hall2 =>
            intro tok htok
            simp only [List.mem_cons, List.not_mem_nil, or_false] at htok
            rcases htok with rfl
            intro k2; rfl
      · -- s = 0, e < t.length
        have hf1 : ([(⟨[], ([] : Annotations)⟩ : Tok),
            ⟨t.take e, [(S, AVal.b true)]⟩,
            ⟨t.drop e, ([] : Annotations)⟩]).filter (fun tok => 0 < tok.text.length)
            = [⟨t.take e, [(S, AVal.b true)]⟩, ⟨t.drop e, []⟩] := by
          simp [List.filter_cons, hse, htlen, hel]
        have hchain1 : List.Chain' (fun a b => mergeTest a b = false)
            [(⟨t.take e, [(S, AVal.b true)]⟩ : Tok), ⟨t.drop e, ([] : Annotations)⟩] := by
          rw [List.chain'_cons]
          exact ⟨mergeTest_single_ne _ _ _ _ (by simp [jsGet]), by simp⟩
        have hr1 : toggleStyleOp S [⟨t, []⟩] 0 e
            = some [⟨t.take e, [(S, AVal.b true)]⟩, ⟨t.drop e, []⟩] := by
          rw [toggleStyleOp, hsplit1, Option.map_some']
          dsimp only
          rw [hf1, concatTokens_no_merge _ hchain1]
        have hsplit2 := c4_split_mid [] [⟨t.drop e, ([] : Annotations)⟩]
            ⟨t.take e, [(S, AVal.b true)]⟩ S 0 e
            (by simp [textLen])
            (by dsimp only; rw [List.length_take]; omega)
            hse huBz
        rw [concile_true_true] at hsplit2
        simp only [List.cons_append, List.nil_append] at hsplit2
        have hf2 : ([(⟨[], [(S, AVal.b true)]⟩ : Tok),
            ⟨t.take e, [(S, AVal.b false)]⟩,
            ⟨[], [(S, AVal.b true)]⟩,
            ⟨t.drop e, ([] : Annotations)⟩]).filter (fun tok => 0 < tok.text.length)
            = [⟨t.take e, [(S, AVal.b false)]⟩, ⟨t.drop e, []⟩] := by
          simp [List.filter_cons, hse, htlen, hel]
        have hchain2 : List.Chain' (fun a b => mergeTest a b = false)
            [(⟨t.take e, [(S, AVal.b false)]⟩ : Tok), ⟨t.drop e, ([] : Annotations)⟩] := by
          rw [List.chain'_cons]
          exact ⟨mergeTest_single_ne _ _ _ _ (by simp [jsGet]), by simp⟩
        have hr2 : toggleStyleOp S [⟨t.take e, [(S, AVal.b true)]⟩, ⟨t.drop e, []⟩] 0 e
            = some [⟨t.take e, [(S, AVal.b false)]⟩, ⟨t.drop e, []⟩] := by
          rw [toggleStyleOp, hsplit2, Option.map_some']
          dsimp only
          rw [hf2, concatTokens_no_merge _ hchain2]
        refine ⟨_, _, hr1, hr2, ?_, ?_, ?_⟩
        · simp only [tsFlat, List.foldl_cons, List.foldl_nil, List.nil_append]
          exact List.take_append_drop _ _
        · simp only [tsFlat, List.foldl_cons, List.foldl_nil, List.nil_append]
          exact List.take_append_drop _ _
        · intro p k
          rw [posAnn_truthy_false _ ?hall p k, posAnn_truthy_false _ ?hall2 p k]
          case hall =>
            intro tok htok
            simp only [List.mem_cons, List.not_mem_nil, or_false] at htok
            rcases htok with rfl | rfl
            · intro k2; exact truthy_bfalse S k2
            · intro k2; rfl
          case hall2 =>
            intro tok htok
            simp only [List.mem_cons, List.not_mem_nil, or_false] at htok
            rcases htok with rfl
            intro k2; rfl
    · -- 0 < s
      have hsl : s < t.length := by omega
      rcases eq_or_lt_of_le he with hel | hel
      · -- 0 < s, e = t.length
        have hC0 : t.drop e = [] := List.drop_eq_nil_of_le (by omega)
        rw [hC0] at hsplit1
        have hf1 : ([(⟨t.take s, ([] : Annotations)⟩ : Tok),
            ⟨(t.take e).drop s, [(S, AVal.b true)]⟩,
            ⟨[], ([] : Annotations)⟩]).filter (fun tok => 0 < tok.text.length)
            = [⟨t.take s, []⟩, ⟨(t.take e).drop s, [(S, AVal.b true)]⟩] := by
          simp [List.filter_cons, hs0, hse, htlen, hsl]
        have hchain1 : List.Chain' (fun a b => mergeTest a b = false)
            [(⟨t.take s, ([] : Annotations)⟩ : Tok),
             ⟨(t.take e).drop s, [(S, AVal.b true)]⟩] := by
          rw [List.chain'_cons]
          exact ⟨mergeTest_empty_prev _ _, by simp⟩
        have hr1 : toggleStyleOp S [⟨t, []⟩] s e
            = some [⟨t.take s, []⟩, ⟨(t.take e).drop s, [(S, AVal.b true)]⟩] := by
          rw [toggleStyleOp, hsplit1, Option.map_some']
          dsimp only
          rw [hf1, concatTokens_no_merge _ hchain1]
        have hsplit2 := c4_split_mid [⟨t.take s, ([] : Annotations)⟩] []
            ⟨(t.take e).drop s, [(S, AVal.b true)]⟩ S s e
            (by simp [textLen]; omega)
            (by dsimp only; rw [List.length_drop, List.length_take]; omega)
            hse huB
        rw [concile_true_true] at hsplit2
        simp only [List.cons_append, List.nil_append, List.append_nil] at hsplit2
        have hf2 : ([(⟨t.take s, ([] : Annotations)⟩ : Tok),
            ⟨[], [(S, AVal.b true)]⟩,
            ⟨(t.take e).drop s, [(S, AVal.b false)]⟩,
            ⟨[], [(S, AVal.b true)]⟩]).filter (fun tok => 0 < tok.text.length)
            = [⟨t.take s, []⟩, ⟨(t.take e).drop s, [(S, AVal.b false)]⟩] := by
          simp [List.filter_cons, hs0, hse, htlen, hsl]
        have hchain2 : List.Chain' (fun a b => mergeTest a b = false)
            [(⟨t.take s, ([] : Annotations)⟩ : Tok),
             ⟨(t.take e).drop s, [(S, AVal.b false)]⟩] := by
          rw [List.chain'_cons]
          exact ⟨mergeTest_empty_prev _ _, by simp⟩
        have hr2 : toggleStyleOp S
            [⟨t.take s, []⟩, ⟨(t.take e).drop s, [(S, AVal.b true)]⟩] s e
            = some [⟨t.take s, []⟩, ⟨(t.take e).drop s, [(S, AVal.b false)]⟩] := by
          rw [toggleStyleOp, hsplit2, Option.map_some']
          dsimp only
          rw [hf2, concatTokens_no_merge _ hchain2]
        refine ⟨_, _, hr1, hr2, ?_, ?_, ?_⟩
        · simp only [tsFlat, List.foldl_cons, List.foldl_nil, List.nil_append]
          rw [hAB]
          exact List.take_of_length_le (by omega)
        · simp only [tsFlat, List.foldl_cons, List.foldl_nil, List.nil_append]
          rw [hAB]
          exact List.take_of_length_le (by omega)
        · intro p k
          rw [posAnn_truthy_false _ ?hall p k, posAnn_truthy_false _ ?hall2 p k]
          case hall =>
            intro tok htok
            simp only [List.mem_cons, List.not_mem_nil, or_false] at htok
            rcases htok with rfl | rfl
            · intro k2; rfl
            · intro k2; exact truthy_bfalse S k2
          case hall2 =>
            intro tok htok
            simp only [List.mem_cons, List.not_mem_nil, or_false] at htok
            rcases htok with rfl
            intro k2; rfl
      · -- 0 < s, e < t.length
        have hf1 : ([(⟨t.take s, ([] : Annotations)⟩ : Tok),
            ⟨(t.take e).drop s, [(S, AVal.b true)]⟩,
            ⟨t.drop e, ([] : Annotations)⟩]).filter (fun tok => 0 < tok.text.length)
            = [⟨t.take s, []⟩, ⟨(t.take e).drop s, [(S, AVal.b true)]⟩, ⟨t.drop e, []⟩] := by
          simp [List.filter_cons, hs0, hse, hel, htlen, hsl]
        have hchain1 : List.Chain' (fun a b => mergeTest a b = false)
            [(⟨t.take s, ([] : Annotations)⟩ : Tok),
             ⟨(t.take e).drop s, [(S, AVal.b true)]⟩, ⟨t.drop e, ([] : Annotations)⟩] := by
          rw [List.chain'_cons, List.chain'_cons]
          exact ⟨mergeTest_empty_prev _ _,
            mergeTest_single_ne _ _ _ _ (by simp [jsGet]), by simp⟩
        have hr1 : toggleStyleOp S [⟨t, []⟩] s e
            = some [⟨t.take s, []⟩, ⟨(t.take e).drop s, [(S, AVal.b true)]⟩,
              ⟨t.drop e, []⟩] := by
          rw [toggleStyleOp, hsplit1, Option.map_some']
          dsimp only
          rw [hf1, concatTokens_no_merge _ hchain1]
        have hsplit2 := c4_split_mid [⟨t.take s, ([] : Annotations)⟩]
            [⟨t.drop e, ([] : Annotations)⟩]
            ⟨(t.take e).drop s, [(S, AVal.b true)]⟩ S s e
            (by simp [textLen]; omega)
            (by dsimp only; rw [List.length_drop, List.length_take]; omega)
            hse huB
        rw [concile_true_true] at hsplit2
        simp only [List.cons_append, List.nil_append] at hsplit2
        have hf2 : ([(⟨t.take s, ([] : Annotations)⟩ : Tok),
            ⟨[], [(S, AVal.b true)]⟩,
            ⟨(t.take e).drop s, [(S, AVal.b false)]⟩,
            ⟨[], [(S, AVal.b true)]⟩,
            ⟨t.drop e, ([] : Annotations)⟩]).filter (fun tok => 0 < tok.text.length)
            = [⟨t.take s, []⟩, ⟨(t.take e).drop s, [(S, AVal.b false)]⟩, ⟨t.drop e, []⟩] := by
          simp [List.filter_cons, hs0, hse, hel, htlen, hsl]
        have hchain2 : List.Chain' (fun a b => mergeTest a b = false)
            [(⟨t.take s, ([] : Annotations)⟩ : Tok),
             ⟨(t.take e).drop s, [(S, AVal.b false)]⟩, ⟨t.drop e, ([] : Annotations)⟩] := by
          rw [List.chain'_cons, List.chain'_cons]
          exact ⟨mergeTest_empty_prev _ _,
            mergeTest_single_ne _ _ _ _ (by simp [jsGet]), by simp⟩
        have hr2 : toggleStyleOp S
            [⟨t.take s, []⟩, ⟨(t.take e).drop s, [(S, AVal.b true)]⟩, ⟨t.drop e, []⟩] s e
            = some [⟨t.take s, []⟩, ⟨(t.take e).drop s, [(S, AVal.b false)]⟩,
              ⟨t.drop e, []⟩] := by
          rw [toggleStyleOp, hsplit2, Option.map_some']
          dsimp only
          rw [hf2, concatTokens_no_merge _ hchain2]
        refine ⟨_, _, hr1, hr2, ?_, ?_, ?_⟩
        · simp only [tsFlat, List.foldl_cons, List.foldl_nil, List.nil_append]
          exact hABC
        · simp only [tsFlat, List.foldl_cons, List.foldl_nil, List.nil_append]
          exact hABC
        · intro p k
          rw [posAnn_truthy_false _ ?hall p k, posAnn_truthy_false _ ?hall2 p k]
          case hall =>
            intro tok htok
            simp only [List.mem_cons, List.not_mem_nil, or_false] at htok
            rcases htok with rfl | rfl | rfl
            · intro k2; rfl
            · intro k2; exact truthy_bfalse S k2
            · intro k2; rfl
          case hall2 =>
            intro tok htok
            simp only [List.mem_cons, List.not_mem_nil, or_false] at htok
            rcases htok with rfl
            intro k2; rfl
  · -- uniformly styled run
    have hsplit1 := c4_split_single t [(S, AVal.b true)] S s e hse he hu
    rw [concile_true_true] at hsplit1
    rcases Nat.eq_zero_or_pos s with rfl | hs0
    · rw [List.take_zero, List.drop_zero] at hsplit1 hAB hABC
      rcases eq_or_lt_of_le he with hel | hel
      · -- s = 0, e = t.length
        have hteq : t.take e = t := List.take_of_length_le (by omega)
        have hC0 : t.drop e = [] := List.drop_eq_nil_of_le (by omega)
        rw [hC0, hteq] at hsplit1
        have hf1 : ([(⟨[], [(S, AVal.b true)]⟩ : Tok),
            ⟨t, [(S, AVal.b false)]⟩,
            ⟨[], [(S, AVal.b true)]⟩]).filter (fun tok => 0 < tok.text.length)
            = [⟨t, [(S, AVal.b false)]⟩] := by
          simp [List.filter_cons, htlen]
        have hr1 : toggleStyleOp S [⟨t, [(S, AVal.b true)]⟩] 0 e
            = some [⟨t, [(S, AVal.b false)]⟩] := by
          rw [toggleStyleOp, hsplit1, Option.map_some']
          dsimp only
          rw [hf1, concatTokens_no_merge _ (by simp)]
        have hsplit2 := c4_split_mid [] [] ⟨t, [(S, AVal.b false)]⟩ S 0 e
            (by simp [textLen])
            (by dsimp only; omega)
            hse hu
        rw [concile_false_true] at hsplit2
        simp only [List.cons_append, List.nil_append, List.append_nil] at hsplit2
        have hf2 : ([(⟨[], [(S, AVal.b false)]⟩ : Tok),
            ⟨t, [(S, AVal.b true)]⟩,
            ⟨[], [(S, AVal.b false)]⟩]).filter (fun tok => 0 < tok.text.length)
            = [⟨t, [(S, AVal.b true)]⟩] := by
          simp [List.filter_cons, htlen]
        have hr2 : toggleStyleOp S [⟨t, [(S, AVal.b false)]⟩] 0 e
            = some [⟨t, [(S, AVal.b true)]⟩] := by
          rw [toggleStyleOp, hsplit2, Option.map_some']
          dsimp only
          rw [hf2, concatTokens_no_merge _ (by simp)]
        exact ⟨_, _, hr1, hr2, rfl, rfl, fun p k => rfl⟩
      · -- s = 0, e < t.length
        have hf1 : ([(⟨[], [(S, AVal.b true)]⟩ : Tok),
            ⟨t.take e, [(S, AVal.b false)]⟩,
            ⟨t.drop e, [(S, AVal.b true)]⟩]).filter (fun tok => 0 < tok.text.length)
            = [⟨t.take e, [(S, AVal.b false)]⟩, ⟨t.drop e, [(S, AVal.b true)]⟩] := by
          simp [List.filter_cons, hse, htlen, hel]
        have hchain1 : List.Chain' (fun a b => mergeTest a b = false)
            [(⟨t.take e, [(S, AVal.b false)]⟩ : Tok), ⟨t.drop e, [(S, AVal.b true)]⟩] := by
          rw [List.chain'_cons]
          exact ⟨mergeTest_single_ne _ _ _ _ (by simp [jsGet]), by simp⟩
        have hr1 : toggleStyleOp S [⟨t, [(S, AVal.b true)]⟩] 0 e
            = some [⟨t.take e, [(S, AVal.b false)]⟩, ⟨t.drop e, [(S, AVal.b true)]⟩] := by
          rw [toggleStyleOp, hsplit1, Option.map_some']
          dsimp only
          rw [hf1, concatTokens_no_merge _ hchain1]
        have hsplit2 := c4_split_mid [] [⟨t.drop e, [(S, AVal.b true)]⟩]
            ⟨t.take e, [(S, AVal.b false)]⟩ S 0 e
            (by simp [textLen])
            (by dsimp only; rw [List.length_take]; omega)
            hse huBz
        rw [concile_false_true] at hsplit2
        simp only [List.cons_append, List.nil_append] at hsplit2
        have hf2 : ([(⟨[], [(S, AVal.b false)]⟩ : Tok),
            ⟨t.take e, [(S, AVal.b true)]⟩,
            ⟨[], [(S, AVal.b false)]⟩,
            ⟨t.drop e, [(S, AVal.b true)]⟩]).filter (fun tok => 0 < tok.text.length)
            = [⟨t.take e, [(S, AVal.b true)]⟩, ⟨t.drop e, [(S, AVal.b true)]⟩] := by
          simp [List.filter_cons, hse, htlen, hel]
        have hr2 : toggleStyleOp S
            [⟨t.take e, [(S, AVal.b false)]⟩, ⟨t.drop e, [(S, AVal.b true)]⟩] 0 e
            = some [⟨t, [(S, AVal.b true)]⟩] := by
          rw [toggleStyleOp, hsplit2, Option.map_some']
          dsimp only
          rw [hf2, concat_merge2, List.take_append_drop]
        refine ⟨_, _, hr1, hr2, ?_, rfl, fun p k => rfl⟩
        simp only [tsFlat, List.foldl_cons, List.foldl_nil, List.nil_append]
        exact List.take_append_drop _ _
    · -- 0 < s
      have hsl : s < t.length := by omega
      rcases eq_or_lt_of_le he with hel | hel
      · -- 0 < s, e = t.length
        have hC0 : t.drop e = [] := List.drop_eq_nil_of_le (by omega)
        rw [hC0] at hsplit1
        have hf1 : ([(⟨t.take s, [(S, AVal.b true)]⟩ : Tok),
            ⟨(t.take e).drop s, [(S, AVal.b false)]⟩,
            ⟨[], [(S, AVal.b true)]⟩]).filter (fun tok => 0 < tok.text.length)
            = [⟨t.take s, [(S, AVal.b true)]⟩, ⟨(t.take e).drop s, [(S, AVal.b false)]⟩] := by
          simp [List.filter_cons, hs0, hse, htlen, hsl]
        have hchain1 : List.Chain' (fun a b => mergeTest a b = false)
            [(⟨t.take s, [(S, AVal.b true)]⟩ : Tok),
             ⟨(t.take e).drop s, [(S, AVal.b false)]⟩] := by
          rw [List.chain'_cons]
          exact ⟨mergeTest_single_ne _ _ _ _ (by simp [jsGet]), by simp⟩
        have hr1 : toggleStyleOp S [⟨t, [(S, AVal.b true)]⟩] s e
            = some [⟨t.take s, [(S, AVal.b true)]⟩,
              ⟨(t.take e).drop s, [(S, AVal.b false)]⟩] := by
          rw [toggleStyleOp, hsplit1, Option.map_some']
          dsimp only
          rw [hf1, concatTokens_no_merge _ hchain1]
        have hsplit2 := c4_split_mid [⟨t.take s, [(S, AVal.b true)]⟩] []
            ⟨(t.take e).drop s, [(S, AVal.b false)]⟩ S s e
            (by simp [textLen]; omega)
            (by dsimp only; rw [List.length_drop, List.length_take]; omega)
            hse huB
        rw [concile_false_true] at hsplit2
        simp only [List.cons_append, List.nil_append, List.append_nil] at hsplit2
        have hf2 : ([(⟨t.take s, [(S, AVal.b true)]⟩ : Tok),
            ⟨[], [(S, AVal.b false)]⟩,
            ⟨(t.take e).drop s, [(S, AVal.b true)]⟩,
            ⟨[], [(S, AVal.b false)]⟩]).filter (fun tok => 0 < tok.text.length)
            = [⟨t.take s, [(S, AVal.b true)]⟩, ⟨(t.take e).drop s, [(S, AVal.b true)]⟩] := by
          simp [List.filter_cons, hs0, hse, htlen, hsl]
        have hr2 : toggleStyleOp S
            [⟨t.take s, [(S, AVal.b true)]⟩, ⟨(t.take e).drop s, [(S, AVal.b false)]⟩] s e
            = some [⟨t, [(S, AVal.b true)]⟩] := by
          rw [toggleStyleOp, hsplit2, Option.map_some']
          dsimp only
          rw [hf2, concat_merge2, hAB, List.take_of_length_le (by omega)]
        refine ⟨_, _, hr1, hr2, ?_, rfl, fun p k => rfl⟩
        simp only [tsFlat, List.foldl_cons, List.foldl_nil, List.nil_append]
        rw [hAB]
        exact List.take_of_length_le (by omega)
      · -- 0 < s, e < t.length
        have hf1 : ([(⟨t.take s, [(S, AVal.b true)]⟩ : Tok),
            ⟨(t.take e).drop s, [(S, AVal.b false)]⟩,
            ⟨t.drop e, [(S, AVal.b true)]⟩]).filter (fun tok => 0 < tok.text.length)
            = [⟨t.take s, [(S, AVal.b true)]⟩, ⟨(t.take e).drop s, [(S, AVal.b false)]⟩,
              ⟨t.drop e, [(S, AVal.b true)]⟩] := by
          simp [List.filter_cons, hs0, hse, hel, htlen, hsl]
        have hchain1 : List.Chain' (fun a b => mergeTest a b = false)
            [(⟨t.take s, [(S, AVal.b true)]⟩ : Tok),
             ⟨(t.take e).drop s, [(S, AVal.b false)]⟩, ⟨t.drop e, [(S, AVal.b true)]⟩] := by
          rw [List.chain'_cons, List.chain'_cons]
          exact ⟨mergeTest_single_ne _ _ _ _ (by simp [jsGet]),
            mergeTest_single_ne _ _ _ _ (by simp [jsGet]), by simp⟩
        have hr1 : toggleStyleOp S [⟨t, [(S, AVal.b true)]⟩] s e
            = some [⟨t.take s, [(S, AVal.b true)]⟩,
              ⟨(t.take e).drop s, [(S, AVal.b false)]⟩, ⟨t.drop e, [(S, AVal.b true)]⟩] := by
          rw [toggleStyleOp, hsplit1, Option.map_some']
          dsimp only
          rw [hf1, concatTokens_no_merge _ hchain1]
        have hsplit2 := c4_split_mid [⟨t.take s, [(S, AVal.b true)]⟩]
            [⟨t.drop e, [(S, AVal.b true)]⟩]
            ⟨(t.take e).drop s, [(S, AVal.b false)]⟩ S s e
            (by simp [textLen]; omega)
            (by dsimp only; rw [List.length_drop, List.length_take]; omega)
            hse huB
        rw [concile_false_true] at hsplit2
        simp only [List.cons_append, List.nil_append] at hsplit2
        have hf2 : ([(⟨t.take s, [(S, AVal.b true)]⟩ : Tok),
            ⟨[], [(S, AVal.b false)]⟩,
            ⟨(t.take e).drop s, [(S, AVal.b true)]⟩,
            ⟨[], [(S, AVal.b false)]⟩,
            ⟨t.drop e, [(S, AVal.b true)]⟩]).filter (fun tok => 0 < tok.text.length)
            = [⟨t.take s, [(S, AVal.b true)]⟩, ⟨(t.take e).drop s, [(S, AVal.b true)]⟩,
              ⟨t.drop e, [(S, AVal.b true)]⟩] := by
          simp [List.filter_cons, hs0, hse, hel, htlen, hsl]
        have hr2 : toggleStyleOp S
            [⟨t.take s, [(S, AVal.b true)]⟩, ⟨(t.take e).drop s, [(S, AVal.b false)]⟩,
             ⟨t.drop e, [(S, AVal.b true)]⟩] s e
            = some [⟨t, [(S, AVal.b true)]⟩] := by
          rw [toggleStyleOp, hsplit2, Option.map_some']
          dsimp only
          rw [hf2, concat_merge3, hABC]
        refine ⟨_, _, hr1, hr2, ?_, rfl, fun p k => rfl⟩
        simp only [tsFlat, List.foldl_cons, List.foldl_nil, List.nil_append]
        exact hABC

/-- Witness: the double toggle of "bold" over [1,3) of the unstyled run
`"hello"` at concrete inputs. -/
theorem c4_double_toggle_restores_witness :
    (([] : Annotations) = [] ∨ ([] : Annotations) = [("bold", AVal.b true)]) ∧
    1 < 3 ∧ 3 ≤ "hello".toList.length ∧
    hasOccur "hello".toList "undefined".toList = false ∧
    ∃ r1 r2 : List Tok,
      toggleStyleOp "bold" [⟨"hello".toList, []⟩] 1 3 = some r1 ∧
      toggleStyleOp "bold" r1 1 3 = some r2 ∧
      tsFlat r1 = "hello".toList ∧ tsFlat r2 = "hello".toList ∧
      ∀ p k, jsTruthy (jsGet (posAnn r2 p) k)
        = jsTruthy (jsGet (posAnn [⟨"hello".toList, ([] : Annotations)⟩] p) k) :=
  ⟨Or.inl rfl, by decide, by decide, by decide,
   c4_double_toggle_restores "hello".toList "bold" [] 1 3 (Or.inl rfl)
     (by decide) (by decide) (by decide)⟩

/-- The first occurrence of `[c]` after a `c`-free prefix is at the prefix
length. -/
theorem idxOf_prefix_free : ∀ (X : Str) (c : Char) (Y : Str), (∀ ch ∈ X, ch ≠ c) →
    idxOf (X ++ c :: Y) [c] = some X.length
  | [], c, Y, _ => by
    rw [List.nil_append, idxOf, if_pos (by simp [List.isPrefixOf])]
    rfl
  | x :: X, c, Y, h => by
    rw [List.cons_append, idxOf,
      if_neg (by simp [List.isPrefixOf]; exact fun hc => (h x (by simp) hc.symm).elim),
      idxOf_prefix_free X c Y (fun ch hch => h ch (by simp [hch]))]
    rfl

/-- Removing the first occurrence of `[c]` from a string that starts with
`c` drops that head. -/
theorem replaceFirst_cons_self (c : Char) (M : Str) : replaceFirst (c :: M) [c] = M := by
  rw [replaceFirst, splitFirst, if_pos (by simp [List.isPrefixOf])]
  rfl

/-- A parser-pass character loop over characters never equal to the closing
literal performs no match. -/
theorem ppc_no_trigger (p : Pattern) (opn cls : Str) :
    ∀ (cs : List Char) (ec : Nat) (copy : Str) (toks : List Tok),
    (∀ ch ∈ cs, [ch] ≠ cls) →
    parsePassChars p opn cls cs ec copy toks = some (copy, toks)
  | [], _, _, _, _ => rfl
  | c :: cs, ec, copy, toks, h => by
    rw [parsePassChars, if_neg (fun hc => h c (by simp) hc.2)]
    exact ppc_no_trigger p opn cls cs _ copy toks (fun ch hch => h ch (by simp [hch]))

/-- The parser-pass character loop skips a block of characters that are
neither the opening nor the closing literal, keeping its state. -/
theorem ppc_skip (p : Pattern) (opn cls : Str) :
    ∀ (xs rest : List Char) (ec : Nat) (copy : Str) (toks : List Tok),
    (∀ ch ∈ xs, [ch] ≠ opn ∧ [ch] ≠ cls) →
    parsePassChars p opn cls (xs ++ rest) ec copy toks
      = parsePassChars p opn cls rest ec copy toks
  | [], rest, ec, copy, toks, _ => by rw [List.nil_append]
  | x :: xs, rest, ec, copy, toks, h => by
    rw [List.cons_append, parsePassChars]
    have hx := h x (by simp)
    rw [if_neg (fun hc => hx.2 hc.2),
      show (if ec < 2 ∧ [x] = opn then ec + 1 else ec) = ec from if_neg (fun hc => hx.1 hc.2)]
    exact ppc_skip p opn cls xs rest ec copy toks (fun ch hch => h ch (by simp [hch]))

/-- Evaluation of the `splitTokens` call made by a matching parser pass on a
single unannotated run: the delimited span becomes a styled middle run and
the two surrounding literals are stripped. -/
theorem c3_split (P M Q : Str) (c : Char) (st : String) :
    splitTokens [⟨P ++ [c] ++ M ++ [c] ++ Q, []⟩]
      ((P.length : Nat) : Int) ((P.length + 1 + M.length : Nat) : Int)
      [(st, AVal.b true)] (some [c])
      = some ⟨([(⟨P, ([] : Annotations)⟩ : Tok), ⟨M, [(st, AVal.b true)]⟩,
               ⟨Q, ([] : Annotations)⟩]).filter (fun tok => 0 < tok.text.length),
              (P ++ M) ++ Q⟩ := by
  have hlen : (P ++ [c] ++ M ++ [c] ++ Q).length
      = P.length + (1 + (M.length + (1 + Q.length))) := by
    simp
    omega
  have hwS : walkLt [⟨P ++ [c] ++ M ++ [c] ++ Q, []⟩] ((P.length : Nat) : Int)
      = ((P.length : Int), some (0, ⟨P ++ [c] ++ M ++ [c] ++ Q, []⟩)) :=
    walkLt_cons_lt _ _ _ (by dsimp only; rw [hlen]; omega)
  have hwE : walkLe [⟨P ++ [c] ++ M ++ [c] ++ Q, []⟩] ((P.length + 1 + M.length : Nat) : Int)
      = (((P.length + 1 + M.length : Nat) : Int), some (0, ⟨P ++ [c] ++ M ++ [c] ++ Q, []⟩)) :=
    walkLe_cons_le _ _ _ (by dsimp only; rw [hlen]; omega)
  rw [splitTokens, hwS, hwE]
  dsimp only
  rw [if_pos rfl]
  have hassoc1 : P ++ [c] ++ M ++ [c] ++ Q = P ++ ([c] ++ M ++ [c] ++ Q) := by
    simp [List.append_assoc]
  have hassoc2 : P ++ [c] ++ M ++ [c] ++ Q = (P ++ [c] ++ M) ++ ([c] ++ Q) := by
    simp [List.append_assoc]
  have hs1 : jsSlice (P ++ [c] ++ M ++ [c] ++ Q) 0 ((P.length : Nat) : Int) = P := by
    rw [show (0 : Int) = ((0 : Nat) : Int) from rfl,
      jsSlice_nat _ _ _ (by omega) (by rw [hlen]; omega), List.drop_zero, hassoc1,
      List.take_left' rfl]
  have hs2 : replaceFirst (jsSlice (P ++ [c] ++ M ++ [c] ++ Q)
      ((P.length : Nat) : Int) ((P.length + 1 + M.length : Nat) : Int)) (jsStr (some [c]))
      = M := by
    rw [jsSlice_nat _ _ _ (by rw [hlen]; omega) (by rw [hlen]; omega), hassoc2,
      List.take_left' (by simp; omega),
      show P ++ [c] ++ M = P ++ ([c] ++ M) by simp [List.append_assoc],
      List.drop_left' rfl]
    exact replaceFirst_cons_self c M
  have hs3 : replaceFirst (jsSlice (P ++ [c] ++ M ++ [c] ++ Q)
      ((P.length + 1 + M.length : Nat) : Int)
      (((P ++ [c] ++ M ++ [c] ++ Q).length : Nat) : Int)) (jsStr (some [c]))
      = Q := by
    rw [jsSlice_nat _ _ _ (by rw [hlen]; omega) (le_refl _), List.take_length, hassoc2,
      List.drop_left' (by simp; omega)]
    exact replaceFirst_cons_self c Q
  rw [hs1, hs2, hs3]
  rfl

/-- A single-character-literal pass is a no-op when its literal occurs
nowhere in the working string. -/
theorem parsePass_sym_noop (p : Pattern) (c' : Char)
    (hopn : p.opening = some [c']) (hcls : p.closing = some [c'])
    (stt : Str × List Tok) (h : ∀ ch ∈ stt.1, ch ≠ c') :
    parsePass stt p = some stt := by
  rw [parsePass, hopn, hcls]
  dsimp only
  rw [if_neg (by simp)]
  exact ppc_no_trigger p [c'] [c'] stt.1 0 stt.1 stt.2
    (fun ch hch hc => h ch hch (by simpa using hc))

/-- A two-character-literal pass is always a no-op: the per-character
comparison `[c] = opening` never holds against a two-character literal. -/
theorem parsePass_dbl_noop (p : Pattern) (c' : Char)
    (hopn : p.opening = some [c', c']) (hcls : p.closing = some [c', c'])
    (stt : Str × List Tok) :
    parsePass stt p = some stt := by
  rw [parsePass, hopn, hcls]
  dsimp only
  rw [if_neg (by simp)]
  exact ppc_no_trigger p [c', c'] [c', c'] stt.1 0 stt.1 stt.2 (fun ch hch => by simp)

/-- A pass whose pattern has no closing literal is a no-op. -/
theorem parsePass_noclosing (p : Pattern) (hcls : p.closing = none)
    (stt : Str × List Tok) : parsePass stt p = some stt := by
  rw [parsePass, hcls]
  cases p.opening <;> rfl

/-- Evaluation of a full matching pass on a single-segment string
`P ++ [c] ++ M ++ [c] ++ Q` whose outer parts are free of the delimiter:
exactly one match fires, producing the three-piece run list and the
stripped plain text. -/
theorem parsePass_match (p : Pattern) (c : Char)
    (hopn : p.opening = some [c]) (hcls : p.closing = some [c])
    (P M Q : Str) (hP : ∀ ch ∈ P, ch ≠ c) (hM : ∀ ch ∈ M, ch ≠ c)
    (hQ : ∀ ch ∈ Q, ch ≠ c) :
    parsePass (P ++ [c] ++ M ++ [c] ++ Q, [⟨P ++ [c] ++ M ++ [c] ++ Q, []⟩]) p
      = some ((P ++ M) ++ Q,
          ([(⟨P, ([] : Annotations)⟩ : Tok), ⟨M, [(p.style, AVal.b true)]⟩,
            ⟨Q, ([] : Annotations)⟩]).filter (fun tok => 0 < tok.text.length)) := by
  have hskipP : ∀ ch ∈ P, ([ch] : Str) ≠ [c] ∧ ([ch] : Str) ≠ [c] := fun ch hch =>
    ⟨fun hc => hP ch hch (by simpa using hc), fun hc => hP ch hch (by simpa using hc)⟩
  have hskipM : ∀ ch ∈ M, ([ch] : Str) ≠ [c] ∧ ([ch] : Str) ≠ [c] := fun ch hch =>
    ⟨fun hc => hM ch hch (by simpa using hc), fun hc => hM ch hch (by simpa using hc)⟩
  have hoi : jsIndexOf (P ++ c :: (M ++ c :: Q)) [c] = ((P.length : Nat) : Int) := by
    rw [jsIndexOf, show (P ++ c :: (M ++ c :: Q) : Str) = P ++ c :: (M ++ c :: Q) from rfl,
      idxOf_prefix_free P c _ hP]
  have hci : jsIndexOfFrom (P ++ c :: (M ++ c :: Q)) [c] (((P.length : Nat) : Int) + 1)
      = ((P.length + 1 + M.length : Nat) : Int) := by
    rw [jsIndexOfFrom, show ((P.length : Nat) : Int) + 1 = ((P.length + 1 : Nat) : Int)
      by push_cast; ring, jsClamp_natCast,
      Nat.min_eq_left (by simp),
      show (P ++ c :: (M ++ c :: Q) : Str) = (P ++ [c]) ++ (M ++ c :: Q) by simp,
      List.drop_left' (by simp),
      idxOf_prefix_free M c Q hM]
  have hsplit := c3_split P M Q c p.style
  simp only [List.append_assoc, List.singleton_append, List.cons_append, List.nil_append] at hsplit
  rw [parsePass, hopn, hcls]
  dsimp only
  rw [if_neg (by simp)]
  simp only [List.append_assoc, List.singleton_append, List.cons_append, List.nil_append]
  rw [ppc_skip p [c] [c] P (c :: (M ++ c :: Q)) 0 _ _ hskipP,
    parsePassChars,
    show (if 0 < 2 ∧ ([c] : Str) = [c] then (0 : Nat) + 1 else 0) = 1
      from if_pos ⟨by omega, rfl⟩,
    if_neg (fun hc => absurd hc.1 (by omega)),
    ppc_skip p [c] [c] M (c :: Q) 1 _ _ hskipM,
    parsePassChars,
    show (if 1 < 2 ∧ ([c] : Str) = [c] then (1 : Nat) + 1 else 1) = 2
      from if_pos ⟨by omega, rfl⟩,
    if_pos ⟨rfl, rfl⟩]
  dsimp only
  rw [hoi, hci, hsplit]
  dsimp only
  exact ppc_no_trigger p [c] [c] Q 2 _ _ (fun ch hch hc => hQ ch hch (by simpa using hc))

/-- Serializing a run with an empty mapping returns its text unchanged. -/
theorem serializeTok_unstyled (X : Str) : serializeTok PATTERNS ⟨X, []⟩ = X := rfl

/-- Serializing a bold-only run wraps it in `*` on both sides. -/
theorem serializeTok_bold (M : Str) :
    serializeTok PATTERNS ⟨M, [("bold", AVal.b true)]⟩ = [ '*' ] ++ M ++ [ '*' ] := by
  simp [serializeTok, PATTERNS, jsGet, jsTruthy, jsStr]

/-- Serializing an italic-only run wraps it in `_` on both sides. -/
theorem serializeTok_italic (M : Str) :
    serializeTok PATTERNS ⟨M, [("italic", AVal.b true)]⟩ = [ '_' ] ++ M ++ [ '_' ] := by
  simp [serializeTok, PATTERNS, jsGet, jsTruthy, jsStr]

/-- Serializing a lineThrough-only run wraps it in `~` on both sides. -/
theorem serializeTok_lineThrough (M : Str) :
    serializeTok PATTERNS ⟨M, [("lineThrough", AVal.b true)]⟩ = [ '~' ] ++ M ++ [ '~' ] := by
  simp [serializeTok, PATTERNS, jsGet, jsTruthy, jsStr]

/-- Serializing a code-only run wraps it in backticks on both sides. -/
theorem serializeTok_code (M : Str) :
    serializeTok PATTERNS ⟨M, [("code", AVal.b true)]⟩ = [btick] ++ M ++ [btick] := by
  simp [serializeTok, PATTERNS, jsGet, jsTruthy, jsStr]

/-- Serializing the three-piece parse result reassembles the original
single-segment string, whichever of the outer pieces are empty. -/
theorem c3_serialize (P M Q : Str) (c : Char) (stl : String) (hMne : M ≠ [])
    (hser : serializeTok PATTERNS ⟨M, [(stl, AVal.b true)]⟩ = [c] ++ M ++ [c]) :
    parseTokens (([(⟨P, ([] : Annotations)⟩ : Tok), ⟨M, [(stl, AVal.b true)]⟩,
      ⟨Q, ([] : Annotations)⟩]).filter (fun tok => 0 < tok.text.length)) PATTERNS
      = P ++ [c] ++ M ++ [c] ++ Q := by
  have hMpos : 0 < M.length := List.length_pos.mpr hMne
  by_cases hPe : P = [] <;> by_cases hQe : Q = []
  · subst hPe; subst hQe
    rw [show (([(⟨[], ([] : Annotations)⟩ : Tok), ⟨M, [(stl, AVal.b true)]⟩,
        ⟨[], ([] : Annotations)⟩]).filter (fun tok => 0 < tok.text.length))
        = [⟨M, [(stl, AVal.b true)]⟩] by simp [List.filter_cons, hMpos]]
    simp only [parseTokens, List.map_cons, List.map_nil, List.foldl_cons, List.foldl_nil,
      List.nil_append]
    rw [hser]
    simp
  · subst hPe
    have hQpos : 0 < Q.length := List.length_pos.mpr hQe
    rw [show (([(⟨[], ([] : Annotations)⟩ : Tok), ⟨M, [(stl, AVal.b true)]⟩,
        ⟨Q, ([] : Annotations)⟩]).filter (fun tok => 0 < tok.text.length))
        = [⟨M, [(stl, AVal.b true)]⟩, ⟨Q, []⟩] by simp [List.filter_cons, hMpos, hQpos]]
    simp only [parseTokens, List.map_cons, List.map_nil, List.foldl_cons, List.foldl_nil,
      List.nil_append]
    rw [hser, serializeTok_unstyled]
  · subst hQe
    have hPpos : 0 < P.length := List.length_pos.mpr hPe
    rw [show (([(⟨P, ([] : Annotations)⟩ : Tok), ⟨M, [(stl, AVal.b true)]⟩,
        ⟨[], ([] : Annotations)⟩]).filter (fun tok => 0 < tok.text.length))
        = [⟨P, []⟩, ⟨M, [(stl, AVal.b true)]⟩] by simp [List.filter_cons, hMpos, hPpos]]
    simp only [parseTokens, List.map_cons, List.map_nil, List.foldl_cons, List.foldl_nil,
      List.nil_append]
    rw [hser, serializeTok_unstyled]
    simp
  · have hPpos : 0 < P.length := List.length_pos.mpr hPe
    have hQpos : 0 < Q.length := List.length_pos.mpr hQe
    rw [show (([(⟨P, ([] : Annotations)⟩ : Tok), ⟨M, [(stl, AVal.b true)]⟩,
        ⟨Q, ([] : Annotations)⟩]).filter (fun tok => 0 < tok.text.length))
        = [⟨P, []⟩, ⟨M, [(stl, AVal.b true)]⟩, ⟨Q, []⟩]
        by simp [List.filter_cons, hMpos, hPpos, hQpos]]
    simp only [parseTokens, List.map_cons, List.map_nil, List.foldl_cons, List.foldl_nil,
      List.nil_append]
    rw [hser, serializeTok_unstyled, serializeTok_unstyled]
    simp

/-- C3 (amended): the round trip holds on single-segment strings: for a
string `P ++ [c] ++ M ++ [c] ++ Q` where `c` is the delimiter of one of the
four symmetric default patterns, `M` is non-empty, and `P`, `M`, `Q` contain
no delimiter characters of the table, parsing produces the three-piece run
list with the delimited span styled, and `parseTokens` maps it back to the
exact input. For richer well-formed inputs the claim fails (see the
counterexample): `evenCount` is never reset after a match, so a later
unbalanced delimiter ghost-matches. -/
theorem c3_roundtrip_single_segment
    (P M Q : Str) (c : Char) (stl : String)
    (hc : (c, stl) ∈ [('*', "bold"), ('_', "italic"), ('~', "lineThrough"), (btick, "code")])
    (hP : ∀ ch ∈ P, ch ∉ (['*', '_', '~', btick] : List Char))
    (hM : ∀ ch ∈ M, ch ∉ (['*', '_', '~', btick] : List Char))
    (hQ : ∀ ch ∈ Q, ch ∉ (['*', '_', '~', btick] : List Char))
    (hMne : M ≠ []) :
    ∃ toks : List Tok,
      parseRichTextStringV2 (P ++ [c] ++ M ++ [c] ++ Q) PATTERNS
        = some (toks, (P ++ M) ++ Q) ∧
      parseTokens toks PATTERNS = P ++ [c] ++ M ++ [c] ++ Q := by
  have hchar_s : ∀ ch ∈ (P ++ [c] ++ M ++ [c] ++ Q : Str),
      ch = c ∨ ch ∉ (['*', '_', '~', btick] : List Char) := by
    intro ch hch
    simp only [List.mem_append, List.mem_cons, List.not_mem_nil, or_false] at hch
    rcases hch with ((((h | h) | h) | h) | h)
    · exact Or.inr (hP ch h)
    · exact Or.inl h
    · exact Or.inr (hM ch h)
    · exact Or.inl h
    · exact Or.inr (hQ ch h)
  have hchar_s2 : ∀ ch ∈ ((P ++ M) ++ Q : Str),
      ch ∉ (['*', '_', '~', btick] : List Char) := by
    intro ch hch
    simp only [List.mem_append] at hch
    rcases hch with (h | h) | h
    exacts [hP ch h, hM ch h, hQ ch h]
  have hno_s : ∀ d : Char, d ∈ (['*', '_', '~', btick] : List Char) → d ≠ c →
      ∀ ch ∈ (P ++ [c] ++ M ++ [c] ++ Q : Str), ch ≠ d := by
    intro d hd hdc ch hch he
    rcases hchar_s ch hch with rfl | hn
    · exact hdc he.symm
    · rw [he] at hn; exact hn hd
  have hno_s2 : ∀ d : Char, d ∈ (['*', '_', '~', btick] : List Char) →
      ∀ ch ∈ ((P ++ M) ++ Q : Str), ch ≠ d := by
    intro d hd ch hch he
    have hn := hchar_s2 ch hch
    rw [he] at hn; exact hn hd
  have hPc : ∀ d : Char, d ∈ (['*', '_', '~', btick] : List Char) → ∀ ch ∈ P, ch ≠ d := by
    intro d hd ch hch he
    have hn := hP ch hch; rw [he] at hn; exact hn hd
  have hMc : ∀ d : Char, d ∈ (['*', '_', '~', btick] : List Char) → ∀ ch ∈ M, ch ≠ d := by
    intro d hd ch hch he
    have hn := hM ch hch; rw [he] at hn; exact hn hd
  have hQc : ∀ d : Char, d ∈ (['*', '_', '~', btick] : List Char) → ∀ ch ∈ Q, ch ≠ d := by
    intro d hd ch hch he
    have hn := hQ ch hch; rw [he] at hn; exact hn hd
  simp only [List.mem_cons, List.not_mem_nil, or_false, Prod.mk.injEq] at hc
  rcases hc with ⟨rfl, rfl⟩ | ⟨rfl, rfl⟩ | ⟨rfl, rfl⟩ | ⟨rfl, rfl⟩
  · -- bold
    have e1 := parsePass_match ⟨"bold", some (.sym1 '*'), some ['*'], some ['*']⟩ '*'
      rfl rfl P M Q (hPc '*' (by decide)) (hMc '*' (by decide)) (hQc '*' (by decide))
    have e2 := parsePass_sym_noop ⟨"italic", some (.sym1 '_'), some ['_'], some ['_']⟩ '_'
      rfl rfl
      ((P ++ M) ++ Q, ([(⟨P, ([] : Annotations)⟩ : Tok), ⟨M, [("bold", AVal.b true)]⟩,
        ⟨Q, ([] : Annotations)⟩]).filter (fun tok => 0 < tok.text.length))
      (hno_s2 '_' (by decide))
    have e3 := parsePass_sym_noop
      ⟨"lineThrough", some (.sym1 '~'), some ['~'], some ['~']⟩ '~'
      rfl rfl
      ((P ++ M) ++ Q, ([(⟨P, ([] : Annotations)⟩ : Tok), ⟨M, [("bold", AVal.b true)]⟩,
        ⟨Q, ([] : Annotations)⟩]).filter (fun tok => 0 < tok.text.length))
      (hno_s2 '~' (by decide))
    have e4 := parsePass_sym_noop ⟨"code", some (.sym1 btick), some [btick], some [btick]⟩
      btick rfl rfl
      ((P ++ M) ++ Q, ([(⟨P, ([] : Annotations)⟩ : Tok), ⟨M, [("bold", AVal.b true)]⟩,
        ⟨Q, ([] : Annotations)⟩]).filter (fun tok => 0 < tok.text.length))
      (hno_s2 btick (by decide))
    have e5 := parsePass_dbl_noop
      ⟨"underline", some (.dbl '_'), some ['_', '_'], some ['_', '_']⟩ '_' rfl rfl
      ((P ++ M) ++ Q, ([(⟨P, ([] : Annotations)⟩ : Tok), ⟨M, [("bold", AVal.b true)]⟩,
        ⟨Q, ([] : Annotations)⟩]).filter (fun tok => 0 < tok.text.length))
    have e6 := parsePass_noclosing ⟨"heading", none, some ['#'], none⟩ rfl
      ((P ++ M) ++ Q, ([(⟨P, ([] : Annotations)⟩ : Tok), ⟨M, [("bold", AVal.b true)]⟩,
        ⟨Q, ([] : Annotations)⟩]).filter (fun tok => 0 < tok.text.length))
    have e7 := parsePass_noclosing ⟨"subHeading", none, some ['#', '#'], none⟩ rfl
      ((P ++ M) ++ Q, ([(⟨P, ([] : Annotations)⟩ : Tok), ⟨M, [("bold", AVal.b true)]⟩,
        ⟨Q, ([] : Annotations)⟩]).filter (fun tok => 0 < tok.text.length))
    have e8 := parsePass_noclosing ⟨"subSubHeading", none, some ['#', '#', '#'], none⟩ rfl
      ((P ++ M) ++ Q, ([(⟨P, ([] : Annotations)⟩ : Tok), ⟨M, [("bold", AVal.b true)]⟩,
        ⟨Q, ([] : Annotations)⟩]).filter (fun tok => 0 < tok.text.length))
    refine ⟨_, ?_, c3_serialize P M Q '*' "bold" hMne (serializeTok_bold M)⟩
    rw [parseRichTextStringV2, PATTERNS]
    simp only [List.foldlM_cons, List.foldlM_nil, e1, e2, e3, e4, e5, e6, e7, e8,
      Option.bind_eq_bind, Option.some_bind, Option.pure_def, Option.map_some']
  · -- italic
    have e1 := parsePass_sym_noop ⟨"bold", some (.sym1 '*'), some ['*'], some ['*']⟩ '*'
      rfl rfl (P ++ ['_'] ++ M ++ ['_'] ++ Q, [⟨P ++ ['_'] ++ M ++ ['_'] ++ Q, []⟩])
      (hno_s '*' (by decide) (by decide))
    have e2 := parsePass_match ⟨"italic", some (.sym1 '_'), some ['_'], some ['_']⟩ '_'
      rfl rfl P M Q (hPc '_' (by decide)) (hMc '_' (by decide)) (hQc '_' (by decide))
    have e3 := parsePass_sym_noop
      ⟨"lineThrough", some (.sym1 '~'), some ['~'], some ['~']⟩ '~'
      rfl rfl
      ((P ++ M) ++ Q, ([(⟨P, ([] : Annotations)⟩ : Tok), ⟨M, [("italic", AVal.b true)]⟩,
        ⟨Q, ([] : Annotations)⟩]).filter (fun tok => 0 < tok.text.length))
      (hno_s2 '~' (by decide))
    have e4 := parsePass_sym_noop ⟨"code", some (.sym1 btick), some [btick], some [btick]⟩
      btick rfl rfl
      ((P ++ M) ++ Q, ([(⟨P, ([] : Annotations)⟩ : Tok), ⟨M, [("italic", AVal.b true)]⟩,
        ⟨Q, ([] : Annotations)⟩]).filter (fun tok => 0 < tok.text.length))
      (hno_s2 btick (by decide))
    have e5 := parsePass_dbl_noop
      ⟨"underline", some (.dbl '_'), some ['_', '_'], some ['_', '_']⟩ '_' rfl rfl
      ((P ++ M) ++ Q, ([(⟨P, ([] : Annotations)⟩ : Tok), ⟨M, [("italic", AVal.b true)]⟩,
        ⟨Q, ([] : Annotations)⟩]).filter (fun tok => 0 < tok.text.length))
    have e6 := parsePass_noclosing ⟨"heading", none, some ['#'], none⟩ rfl
      ((P ++ M) ++ Q, ([(⟨P, ([] : Annotations)⟩ : Tok), ⟨M, [("italic", AVal.b true)]⟩,
        ⟨Q, ([] : Annotations)⟩]).filter (fun tok => 0 < tok.text.length))
    have e7 := parsePass_noclosing ⟨"subHeading", none, some ['#', '#'], none⟩ rfl
      ((P ++ M) ++ Q, ([(⟨P, ([] : Annotations)⟩ : Tok), ⟨M, [("italic", AVal.b true)]⟩,
        ⟨Q, ([] : Annotations)⟩]).filter (fun tok => 0 < tok.text.length))
    have e8 := parsePass_noclosing ⟨"subSubHeading", none, some ['#', '#', '#'], none⟩ rfl
      ((P ++ M) ++ Q, ([(⟨P, ([] : Annotations)⟩ : Tok), ⟨M, [("italic", AVal.b true)]⟩,
        ⟨Q, ([] : Annotations)⟩]).filter (fun tok => 0 < tok.text.length))
    refine ⟨_, ?_, c3_serialize P M Q '_' "italic" hMne (serializeTok_italic M)⟩
    rw [parseRichTextStringV2, PATTERNS]
    simp only [List.foldlM_cons, List.foldlM_nil, e1, e2, e3, e4, e5, e6, e7, e8,
      Option.bind_eq_bind, Option.some_bind, Option.pure_def, Option.map_some']
  · -- lineThrough
    have e1 := parsePass_sym_noop ⟨"bold", some (.sym1 '*'), some ['*'], some ['*']⟩ '*'
      rfl rfl (P ++ ['~'] ++ M ++ ['~'] ++ Q, [⟨P ++ ['~'] ++ M ++ ['~'] ++ Q, []⟩])
      (hno_s '*' (by decide) (by decide))
    have e2 := parsePass_sym_noop ⟨"italic", some (.sym1 '_'), some ['_'], some ['_']⟩ '_'
      rfl rfl (P ++ ['~'] ++ M ++ ['~'] ++ Q, [⟨P ++ ['~'] ++ M ++ ['~'] ++ Q, []⟩])
      (hno_s '_' (by decide) (by decide))
    have e3 := parsePass_match
      ⟨"lineThrough", some (.sym1 '~'), some ['~'], some ['~']⟩ '~'
      rfl rfl P M Q (hPc '~' (by decide)) (hMc '~' (by decide)) (hQc '~' (by decide))
    have e4 := parsePass_sym_noop ⟨"code", some (.sym1 btick), some [btick], some [btick]⟩
      btick rfl rfl
      ((P ++ M) ++ Q, ([(⟨P, ([] : Annotations)⟩ : Tok),
        ⟨M, [("lineThrough", AVal.b true)]⟩,
        ⟨Q, ([] : Annotations)⟩]).filter (fun tok => 0 < tok.text.length))
      (hno_s2 btick (by decide))
    have e5 := parsePass_dbl_noop
      ⟨"underline", some (.dbl '_'), some ['_', '_'], some ['_', '_']⟩ '_' rfl rfl
      ((P ++ M) ++ Q, ([(⟨P, ([] : Annotations)⟩ : Tok),
        ⟨M, [("lineThrough", AVal.b true)]⟩,
        ⟨Q, ([] : Annotations)⟩]).filter (fun tok => 0 < tok.text.length))
    have e6 := parsePass_noclosing ⟨"heading", none, some ['#'], none⟩ rfl
      ((P ++ M) ++ Q, ([(⟨P, ([] : Annotations)⟩ : Tok),
        ⟨M, [("lineThrough", AVal.b true)]⟩,
        ⟨Q, ([] : Annotations)⟩]).filter (fun tok => 0 < tok.text.length))
    have e7 := parsePass_noclosing ⟨"subHeading", none, some ['#', '#'], none⟩ rfl
      ((P ++ M) ++ Q, ([(⟨P, ([] : Annotations)⟩ : Tok),
        ⟨M, [("lineThrough", AVal.b true)]⟩,
        ⟨Q, ([] : Annotations)⟩]).filter (fun tok => 0 < tok.text.length))
    have e8 := parsePass_noclosing ⟨"subSubHeading", none, some ['#', '#', '#'], none⟩ rfl
      ((P ++ M) ++ Q, ([(⟨P, ([] : Annotations)⟩ : Tok),
        ⟨M, [("lineThrough", AVal.b true)]⟩,
        ⟨Q, ([] : Annotations)⟩]).filter (fun tok => 0 < tok.text.length))
    refine ⟨_, ?_, c3_serialize P M Q '~' "lineThrough" hMne (serializeTok_lineThrough M)⟩
    rw [parseRichTextStringV2, PATTERNS]
    simp only [List.foldlM_cons, List.foldlM_nil, e1, e2, e3, e4, e5, e6, e7, e8,
      Option.bind_eq_bind, Option.some_bind, Option.pure_def, Option.map_some']
  · -- code
    have e1 := parsePass_sym_noop ⟨"bold", some (.sym1 '*'), some ['*'], some ['*']⟩ '*'
      rfl rfl (P ++ [btick] ++ M ++ [btick] ++ Q, [⟨P ++ [btick] ++ M ++ [btick] ++ Q, []⟩])
      (hno_s '*' (by decide) (by decide))
    have e2 := parsePass_sym_noop ⟨"italic", some (.sym1 '_'), some ['_'], some ['_']⟩ '_'
      rfl rfl (P ++ [btick] ++ M ++ [btick] ++ Q, [⟨P ++ [btick] ++ M ++ [btick] ++ Q, []⟩])
      (hno_s '_' (by decide) (by decide))
    have e3 := parsePass_sym_noop
      ⟨"lineThrough", some (.sym1 '~'), some ['~'], some ['~']⟩ '~'
      rfl rfl (P ++ [btick] ++ M ++ [btick] ++ Q, [⟨P ++ [btick] ++ M ++ [btick] ++ Q, []⟩])
      (hno_s '~' (by decide) (by decide))
    have e4 := parsePass_match ⟨"code", some (.sym1 btick), some [btick], some [btick]⟩
      btick rfl rfl P M Q
      (hPc btick (by decide)) (hMc btick (by decide)) (hQc btick (by decide))
    have e5 := parsePass_dbl_noop
      ⟨"underline", some (.dbl '_'), some ['_', '_'], some ['_', '_']⟩ '_' rfl rfl
      ((P ++ M) ++ Q, ([(⟨P, ([] : Annotations)⟩ : Tok), ⟨M, [("code", AVal.b true)]⟩,
        ⟨Q, ([] : Annotations)⟩]).filter (fun tok => 0 < tok.text.length))
    have e6 := parsePass_noclosing ⟨"heading", none, some ['#'], none⟩ rfl
      ((P ++ M) ++ Q, ([(⟨P, ([] : Annotations)⟩ : Tok), ⟨M, [("code", AVal.b true)]⟩,
        ⟨Q, ([] : Annotations)⟩]).filter (fun tok => 0 < tok.text.length))
    have e7 := parsePass_noclosing ⟨"subHeading", none, some ['#', '#'], none⟩ rfl
      ((P ++ M) ++ Q, ([(⟨P, ([] : Annotations)⟩ : Tok), ⟨M, [("code", AVal.b true)]⟩,
        ⟨Q, ([] : Annotations)⟩]).filter (fun tok => 0 < tok.text.length))
    have e8 := parsePass_noclosing ⟨"subSubHeading", none, some ['#', '#', '#'], none⟩ rfl
      ((P ++ M) ++ Q, ([(⟨P, ([] : Annotations)⟩ : Tok), ⟨M, [("code", AVal.b true)]⟩,
        ⟨Q, ([] : Annotations)⟩]).filter (fun tok => 0 < tok.text.length))
    refine ⟨_, ?_, c3_serialize P M Q btick "code" hMne (serializeTok_code M)⟩
    rw [parseRichTextStringV2, PATTERNS]
    simp only [List.foldlM_cons, List.foldlM_nil, e1, e2, e3, e4, e5, e6, e7, e8,
      Option.bind_eq_bind, Option.some_bind, Option.pure_def, Option.map_some']

/-- Witness: the round trip on the concrete single-segment string
`"a*b*d"`. -/
theorem c3_roundtrip_single_segment_witness :
    (('*', "bold") ∈ [('*', "bold"), ('_', "italic"), ('~', "lineThrough"), (btick, "code")]) ∧
    (∀ ch ∈ ("a".toList : Str), ch ∉ (['*', '_', '~', btick] : List Char)) ∧
    (∀ ch ∈ ("b".toList : Str), ch ∉ (['*', '_', '~', btick] : List Char)) ∧
    (∀ ch ∈ ("d".toList : Str), ch ∉ (['*', '_', '~', btick] : List Char)) ∧
    ("b".toList : Str) ≠ [] ∧
    ∃ toks : List Tok,
      parseRichTextStringV2 ("a".toList ++ ['*'] ++ "b".toList ++ ['*'] ++ "d".toList)
        PATTERNS = some (toks, ("a".toList ++ "b".toList) ++ "d".toList) ∧
      parseTokens toks PATTERNS
        = "a".toList ++ ['*'] ++ "b".toList ++ ['*'] ++ "d".toList :=
  ⟨by decide, by decide, by decide, by decide, by decide,
   c3_roundtrip_single_segment "a".toList "b".toList "d".toList '*' "bold"
     (by decide) (by decide) (by decide) (by decide) (by decide)⟩
